import Mathlib

/-!
# Path resolver: a shallow embedding of `resolver.go`

The Go package resolves a dotted / bracketed path expression such as
`user.Parents[0].Parent.Name` against a graph of Go values, using the
`reflect` package for shape dispatch.  This file embeds

* the Go values the resolver can meet (`GoValue`, `Slot`, `Heap`),
* the part of `reflect.Value` the resolver calls (`Value` and its methods),
* the string helpers it calls (`strings.Replace`, `strings.SplitN`,
  `strconv.Atoi`),
* the functions of the package: `formatExpression`, `resolve`, `NewResolver`,
  `concreteResolver.Resolve`, `concreteResolver.AddValue`, `DirectResolve`.

Go strings are modelled by Lean strings; every separator the code looks for
is an ASCII character, so working on characters instead of bytes does not
change where a path is cut.  A Go call either returns or panics; the type
`Go α` keeps both outcomes apart, and a returned pair `(interface{}, error)`
is a pair of options (`none` is Go's `nil`).

Scope of the value model: `int` has 64 bits, and the mutex of the registry is
left out (calls are taken one at a time).  What `reflect` does on the values
is kept: the zero Value a nil pointer or nil interface unwraps to, the
read-only flag of values obtained through unexported fields, the fields
promoted from embedded structs, and the panics of `Value.Type`, of
`Value.Interface`, of `Value.FieldByName` behind a nil embedded pointer and of
`Value.MapIndex` on a map whose key type takes no `string`.  The read-only
flag is one bit, the one that sticks to everything reached from an unexported
field.  `reflect` has a second mark, for a field that is an embedded struct of
unexported type, which the next field selection clears again; the model lets
the flag stick there too, so it is not meant for a path that goes on through
such a field taken under its own name.
-/

namespace Resolver

/-! ## Go types, as far as `reflect.Type.String()` prints them -/

/-- Go types.  A predeclared, defined or literal type is kept by the text
`reflect` prints for it (`string`, `resolver.Person`, `struct \x7b Name string \x7d`);
the composite constructors are the ones the resolver looks through. -/
inductive GoType where
  | named (name : String)
  | ptr (elem : GoType)
  | slice (elem : GoType)
  | array (len : Nat) (elem : GoType)
  | map (elem : GoType)
  deriving DecidableEq, Repr

/-- The text `reflect.Type.String()` gives, which `%s` prints.
A `map` is a map with `string` keys. -/
def GoType.String : GoType → String
  | .named n => n
  | .ptr e => "*" ++ e.String
  | .slice e => "[]" ++ e.String
  | .array n e => "[" ++ toString n ++ "]" ++ e.String
  | .map e => "map[string]" ++ e.String

/-- The empty interface type. -/
def GoType.emptyInterface : GoType := .named "interface \x7b\x7d"

/-- The kinds of `reflect.Kind` the model distinguishes. -/
inductive Kind where
  | Invalid | Bool | Int | String | Func | Interface | Ptr | Slice | Array | Struct | Map
  deriving DecidableEq, Repr

/-! ## Go values -/

mutual
/-- A Go value of a concrete (non-interface) dynamic type: what a non-nil
`interface{}` holds.  Pointers are addresses into a `Heap` (`none` is the nil
pointer), so that value graphs may share and be cyclic.

A struct is given by what `reflect` finds in it under a name.  `fields` lists
the fields `FieldByName` finds, the declared ones and those promoted from
embedded structs: the name, whether the Value obtained may be handed out (it
may not for an unexported field, which `reflect` flags read-only), and the
location.  `nilEmbedded` lists the names of promoted fields that lie behind an
embedded pointer that is nil, where `FieldByName` panics.

`map` is a map with `string` keys.  `mapOf` is a map of another key type `key`:
`takesString` says whether a `string` is assignable to that type (it is to an
interface type that `string` implements, and to no other), and `entries` are
the entries found under string keys.  An entry list is read front to back. -/
inductive GoValue where
  | bool (b : Bool)
  | int (i : Int)
  | str (s : String)
  | func (ty : GoType)
  | ptr (elem : GoType) (addr : Option Nat)
  | slice (elem : GoType) (xs : List Slot)
  | array (elem : GoType) (xs : List Slot)
  | struct (ty : GoType) (fields : List (String × Bool × Slot)) (nilEmbedded : List String)
  | map (elem : GoType) (entries : List (String × Slot))
  | mapOf (key elem : GoType) (takesString : Bool) (entries : List (String × Slot))
/-- A storage location (slice element, struct field, map entry, pointee): it is
either of a concrete static type and then holds a value of that type, or of
static type `interface{}` and then holds nil or a concrete dynamic value. -/
inductive Slot where
  | val (v : GoValue)
  | iface (dyn : Option GoValue)
end

/-- The memory pointers point into. -/
abbrev Heap := Nat → Slot

/-- A Go call returns a result or panics. -/
inductive Go (α : Type) where
  | ret (a : α)
  | panics (msg : String)

/-- The dynamic type of a concrete value. -/
def GoValue.Type : GoValue → GoType
  | .bool _ => .named "bool"
  | .int _ => .named "int"
  | .str _ => .named "string"
  | .func ty => ty
  | .ptr e _ => .ptr e
  | .slice e _ => .slice e
  | .array e xs => .array xs.length e
  | .struct ty _ _ => ty
  | .map e _ => .map e
  | .mapOf k e _ _ => .named ("map[" ++ k.String ++ "]" ++ e.String)

/-- The kind of a concrete value. -/
def GoValue.Kind : GoValue → Kind
  | .bool _ => .Bool
  | .int _ => .Int
  | .str _ => .String
  | .func _ => .Func
  | .ptr _ _ => .Ptr
  | .slice _ _ => .Slice
  | .array _ _ => .Array
  | .struct _ _ _ => .Struct
  | .map _ _ => .Map
  | .mapOf _ _ _ _ => .Map

/-! ## `reflect.Value` -/

/-- A `reflect.Value`: the zero Value, or a handle on a storage location
together with the read-only flag `reflect` sets on everything obtained
through an unexported struct field. -/
inductive Value where
  | zero
  | of (s : Slot) (ro : Bool)

/-- `reflect.ValueOf(i)`: the zero Value for a nil interface, else a handle on
the concrete value, not read-only. -/
def ValueOf : Option GoValue → Value
  | none => .zero
  | some v => .of (.val v) false

/-- `Value.IsValid`. -/
def Value.IsValid : Value → Bool
  | .zero => false
  | .of _ _ => true

/-- `Value.Kind`: `Invalid` for the zero Value, `Interface` for a location of
interface type. -/
def Value.Kind : Value → Kind
  | .zero => .Invalid
  | .of (.iface _) _ => .Interface
  | .of (.val v) _ => v.Kind

/-- `Value.Type`: panics on the zero Value. -/
def Value.Type : Value → Go GoType
  | .zero => .panics "reflect: call of reflect.Value.Type on zero Value"
  | .of (.iface _) _ => .ret GoType.emptyInterface
  | .of (.val v) _ => .ret v.Type

/-- The `interface{}` the content of a location converts to: the content
itself for a location of interface type, else the value boxed. -/
def Slot.toInterface : Slot → Option GoValue
  | .iface dyn => dyn
  | .val v => some v

/-- `Value.Interface`: the value as an `interface{}`.  Panics on the zero
Value and on a Value obtained through an unexported field. -/
def Value.Interface : Value → Go (Option GoValue)
  | .zero => .panics "reflect: call of reflect.Value.Interface on zero Value"
  | .of s ro =>
    if ro then
      .panics "reflect.Value.Interface: cannot return value obtained from unexported field or method"
    else .ret s.toInterface

/-- `Value.Elem` on a pointer: the zero Value for a nil pointer, else the
pointee, with the read-only flag inherited.  (The resolver calls it on kind
`Ptr` only; on other kinds the model returns the zero Value.) -/
def Value.Elem (h : Heap) : Value → Value
  | .of (.val (.ptr _ (some a))) ro => .of (h a) ro
  | _ => .zero

/-- `Value.Len` of a slice or array. -/
def Value.Len : Value → Nat
  | .of (.val (.slice _ xs)) _ => xs.length
  | .of (.val (.array _ xs)) _ => xs.length
  | _ => 0

/-- `Value.Index i` of a slice or array, for an index already checked to be in
range; the read-only flag is inherited. -/
def Value.Index : Value → Nat → Value
  | .of (.val (.slice _ xs)) ro, i => (xs[i]?).elim .zero (fun s => .of s ro)
  | .of (.val (.array _ xs)) ro, i => (xs[i]?).elim .zero (fun s => .of s ro)
  | _, _ => .zero

/-- The field of that exact name, if any. -/
def lookupField (name : String) : List (String × Bool × Slot) → Option (Bool × Slot)
  | [] => none
  | (n, e, s) :: fs => if n = name then some (e, s) else lookupField name fs

/-- `Value.FieldByName`: a declared or promoted field of that name is found,
an unexported one too, which is flagged read-only; the call panics when the
name is that of a promoted field behind a nil embedded pointer; it returns
the zero Value when the struct has no field of that name. -/
def Value.FieldByName : Value → String → Go Value
  | .of (.val (.struct _ fields nilEmbedded)) ro, name =>
    match lookupField name fields with
    | some (exported, s) => .ret (.of s (ro || !exported))
    | none =>
      if name ∈ nilEmbedded then
        .panics "reflect: indirection through nil pointer to embedded struct"
      else .ret .zero
  | _, _ => .ret .zero

/-- The entry under that exact key, if any. -/
def lookupKey (key : String) : List (String × Slot) → Option Slot
  | [] => none
  | (k, s) :: es => if k = key then some s else lookupKey key es

/-- `Value.MapIndex` with a key that is a `string`: the entry under the key, or
the zero Value when the key is absent; the call panics on a map to whose key
type a `string` is not assignable. -/
def Value.MapIndex : Value → String → Go Value
  | .of (.val (.map _ entries)) ro, key =>
    match lookupKey key entries with
    | none => .ret .zero
    | some s => .ret (.of s ro)
  | .of (.val (.mapOf k _ takesString entries)) ro, key =>
    if takesString then
      match lookupKey key entries with
      | none => .ret .zero
      | some s => .ret (.of s ro)
    else
      .panics ("reflect.Value.MapIndex: value of type string is not assignable to type "
        ++ k.String)
  | _, _ => .ret .zero

/-! ## The string helpers the package calls -/

/-- Character-level body of `strings.Replace(s, old, new, -1)` for a
one-character `old`: every occurrence is replaced. -/
def replaceChars (old : Char) (new : List Char) : List Char → List Char
  | [] => []
  | c :: cs => (if c = old then new else [c]) ++ replaceChars old new cs

/-- `strings.Replace(s, old, new, -1)` for a one-character `old`. -/
def Replace (s : String) (old : Char) (new : String) : String :=
  ⟨replaceChars old new.data s.data⟩

/-- Cuts at the first occurrence of `sep`: the text before it and the text
after it, or `none` when `sep` does not occur. -/
def cut (sep : Char) : List Char → Option (List Char × List Char)
  | [] => none
  | c :: cs =>
    if c = sep then some ([], cs)
    else match cut sep cs with
      | none => none
      | some (a, b) => some (c :: a, b)

/-- Character-level body of `strings.SplitN(s, sep, n)` for a one-character
`sep` and `n ≥ 0`: at most `n` pieces, the last one the unsplit remainder. -/
def splitNChars (sep : Char) : Nat → List Char → List (List Char)
  | 0, _ => []
  | 1, s => [s]
  | n + 2, s =>
    match cut sep s with
    | none => [s]
    | some (a, b) => a :: splitNChars sep (n + 1) b

/-- `strings.SplitN(s, sep, n)` for a one-character `sep` and `n ≥ 0`. -/
def SplitN (s : String) (sep : Char) (n : Nat) : List String :=
  (splitNChars sep n s.data).map String.mk

/-- `strings.Split(s, sep)` for a one-character `sep`: all the pieces (a string
of length `l` has at most `l + 1` of them). -/
def Split (s : String) (sep : Char) : List String :=
  SplitN s sep (s.length + 1)

/-- Reads a run of ASCII decimal digits, most significant first, onto the
accumulator; `none` at the first character that is not a digit. -/
def parseDigits : List Char → Nat → Option Nat
  | [], acc => some acc
  | c :: cs, acc =>
    if c.isDigit then parseDigits cs (acc * 10 + (c.toNat - 48)) else none

/-- `strconv.Atoi(s)` on a 64-bit platform: an optional sign `+` or `-`, then
one or more ASCII decimal digits, denoting a number of the range of `int`;
`none` stands for any error (syntax or range). -/
def Atoi (s : String) : Option Int :=
  match s.data with
  | [] => none
  | c :: cs =>
    let digits := if c = '-' ∨ c = '+' then cs else c :: cs
    match digits with
    | [] => none
    | d :: ds =>
      match parseDigits (d :: ds) 0 with
      | none => none
      | some n =>
        let i : Int := if c = '-' then -(n : Int) else (n : Int)
        if -(2 : Int) ^ 63 ≤ i ∧ i < (2 : Int) ^ 63 then some i else none

/-! ## The package -/

/-- Go's `formatExpression`: every `[` becomes `.`, every `]` is dropped. -/
def formatExpression (s : String) : String :=
  let s := Replace s '[' "."
  Replace s ']' ""

/-- Lines 81-87 of `resolve`: a Value of kind `Interface` is replaced by
`reflect.ValueOf(value.Interface())`, and then a Value of kind `Ptr` by
`value.Elem()`.  The two tests follow each other, so both may fire. -/
def unwrap (h : Heap) (value : Value) : Go Value :=
  let afterInterface : Go Value :=
    if value.Kind = .Interface then
      match value.Interface with
      | .panics m => .panics m
      | .ret i => .ret (ValueOf i)
    else .ret value
  match afterInterface with
  | .panics m => .panics m
  | .ret value => if value.Kind = .Ptr then .ret (value.Elem h) else .ret value

/-- The outcome of the shape dispatch of `resolve`: `ok` is the Value
`newValue` holds after the three tests (the zero Value when none of them
assigns it or when the lookup finds nothing), `error` is an early return with
that error text, `panics` is a panic of the `reflect` call made. -/
inductive Step where
  | ok (newValue : Value)
  | error (text : String)
  | panics (msg : String)

/-- Lines 93-115 of `resolve`: the shape dispatch that computes `newValue`. -/
def dispatch (value : Value) (currentField : String) : Step :=
  let afterSequence : Step :=
    if value.Kind = .Slice ∨ value.Kind = .Array then
      match Atoi currentField with
      | none => .error "could not parse index of array"
      | some index =>
        if index ≥ (value.Len : Int) ∨ index < 0 then .error "index is out of range"
        else .ok (value.Index index.toNat)
    else .ok .zero
  match afterSequence with
  | .error e => .error e
  | .panics m => .panics m
  | .ok newValue =>
    let afterStruct : Step :=
      if value.Kind = .Struct then
        match value.FieldByName currentField with
        | .panics m => .panics m
        | .ret found => .ok found
      else .ok newValue
    match afterStruct with
    | .error e => .error e
    | .panics m => .panics m
    | .ok newValue =>
      if value.Kind = .Map then
        match value.MapIndex currentField with
        | .panics m => .panics m
        | .ret found => .ok found
      else .ok newValue

/-- Line 129 of `resolve`: `return newValue.Interface(), nil`. -/
def returnInterface (newValue : Value) : Go (Option GoValue × Option String) :=
  match newValue.Interface with
  | .panics m => .panics m
  | .ret i => .ret (i, none)

/-- Go's `resolve`, with the recursion counted down on `fuel`: one unit per
call.  `resolve` below supplies more fuel than there can be calls. -/
def resolveAux (h : Heap) : Nat → Value → String → Go (Option GoValue × Option String)
  | 0, _, _ => .panics "out of fuel"
  | fuel + 1, value, s =>
    match unwrap h value with
    | .panics m => .panics m
    | .ret value =>
      match SplitN s '.' 2 with
      | [] => .panics "runtime error: index out of range [0] with length 0"
      | currentField :: more =>
        match dispatch value currentField with
        | .panics m => .panics m
        | .error e => .ret (none, some e)
        | .ok newValue =>
          if !newValue.IsValid then
            match value.Type with
            | .panics m => .panics m
            | .ret ty =>
              match more with
              | [] =>
                .ret (none, some (ty.String ++ " does not have field " ++ currentField
                  ++ ": nothing left to resolve"))
              | notResolvedFields :: _ =>
                .ret (none, some (ty.String ++ " does not have field " ++ currentField
                  ++ ": " ++ notResolvedFields ++ " left to resolve"))
          else
            match more with
            | [] => returnInterface newValue
            | notResolvedFields :: _ => resolveAux h fuel newValue notResolvedFields

/-- Go's `resolve(value, s)`: every call passes on a strictly shorter string,
so `s.length + 1` units of fuel are never used up. -/
def resolve (h : Heap) (value : Value) (s : String) : Go (Option GoValue × Option String) :=
  resolveAux h (s.length + 1) value s

/-- The registry: `args` is a Go map from names to `interface{}` values, `none`
being the nil map.  The mutex is left out: calls are taken one at a time. -/
structure concreteResolver where
  args : Option (List (String × Option GoValue))

/-- Go's `NewResolver`. -/
def NewResolver (args : Option (List (String × Option GoValue))) : concreteResolver :=
  { args := args }

/-- Reading `m[key]` in a Go map of `interface{}` values: the value and whether
the key is present (a nil map has no key). -/
def mapGet (m : Option (List (String × Option GoValue))) (key : String) :
    Option GoValue × Bool :=
  match m with
  | none => (none, false)
  | some entries =>
    match entries.find? (fun e => e.1 = key) with
    | none => (none, false)
    | some e => (e.2, true)

/-- Go's `(*concreteResolver).Resolve`. -/
def concreteResolver.Resolve (r : concreteResolver) (h : Heap) (s : String) :
    Go (Option GoValue × Option String) :=
  let s := formatExpression s
  match SplitN s '.' 2 with
  | [] => .ret (none, some "could not resolve: expression is empty")
  | currentField :: more =>
    if currentField = "" then .ret (none, some "could not resolve: expression is empty")
    else
      match mapGet r.args currentField with
      | (_, false) =>
        .ret (none, some ("could not resolve " ++ s ++ ": " ++ currentField ++ " was not found"))
      | (v, true) =>
        match more with
        | [] => .ret (v, none)
        | notResolvedFields :: _ => resolve h (ValueOf v) notResolvedFields

/-- Go's `DirectResolve`. -/
def DirectResolve (h : Heap) (v : Option GoValue) (s : String) :
    Go (Option GoValue × Option String) :=
  let s := formatExpression s
  match SplitN s '.' 2 with
  | [] => .ret (none, some "could not resolve: expression is empty")
  | first :: more =>
    if first = "" then .ret (none, some "could not resolve: expression is empty")
    else
      let value := ValueOf v
      if value.Kind = .Map then resolve h value s
      else
        match more with
        | [] => .ret (v, none)
        | notResolvedFields :: _ => resolve h value notResolvedFields

/-- Go's `(*concreteResolver).AddValue`: `r.args[s] = i`, which overwrites an
entry of the same key and panics on a nil map.  The registry after the call is
returned. -/
def concreteResolver.AddValue (r : concreteResolver) (s : String) (i : Option GoValue) :
    Go concreteResolver :=
  match r.args with
  | none => .panics "assignment to entry in nil map"
  | some entries => .ret { args := some ((s, i) :: entries.filter (fun e => e.1 ≠ s)) }

/-- The registry map as the Go value `DirectResolve` receives when it is handed
the map itself: a `map[string]interface{}` whose entries are locations of
interface type (a nil map reads like an empty one). -/
def argsValue (args : Option (List (String × Option GoValue))) : GoValue :=
  .map GoType.emptyInterface ((args.getD []).map (fun e => (e.1, Slot.iface e.2)))

/-! ## Vocabulary of the specification -/

/-- `strings.Join(elems, sep)`: the elements with `sep` between neighbours. -/
def Join : List String → String → String
  | [], _ => ""
  | [a], _ => a
  | a :: b :: rest, sep => a ++ sep ++ Join (b :: rest) sep

/-- The token sequence of a path, in the words of the specification: the
normalized path split on every `.`. -/
def tokens (path : String) : List String :=
  Split (formatExpression path) '.'

/-- The Value reached from `value` by taking the given tokens one after the
other, each by the unwrapping and the shape dispatch of one call of `resolve`;
`none` when one of the steps does not select a valid Value. -/
def walk (h : Heap) : Value → List String → Option Value
  | value, [] => some value
  | value, t :: ts =>
    match unwrap h value with
    | .panics _ => none
    | .ret u =>
      match dispatch u t with
      | .panics _ => none
      | .error _ => none
      | .ok newValue => if newValue.IsValid then walk h newValue ts else none

/-- The number a run of decimal digits denotes, most significant digit first. -/
def decimalValue (digits : List Char) : Nat :=
  digits.foldl (fun acc c => acc * 10 + (c.toNat - 48)) 0

/-- In the words of the specification (error table, `InvalidIndex`): the token
is the decimal representation of a non-negative integer, that is, one or more
ASCII decimal digits. -/
def isDecimalNat (s : String) : Bool :=
  !s.data.isEmpty && s.data.all Char.isDigit

/-- An integer numeral of the range of `int`: an optional sign `+` or `-`, then
one or more ASCII decimal digits, denoting `i` with `-2^63 ≤ i < 2^63`. -/
def IsIntNumeral (s : String) (i : Int) : Prop :=
  ∃ digits : List Char, digits ≠ [] ∧ (∀ c ∈ digits, c.isDigit = true) ∧
    (((s.data = digits ∨ s.data = '+' :: digits) ∧ i = (decimalValue digits : Int) ∧
        i < (2 : Int) ^ 63) ∨
      (s.data = '-' :: digits ∧ i = -(decimalValue digits : Int) ∧ -(2 : Int) ^ 63 ≤ i))

/-- The mapping a location holds, directly or as the dynamic value of an
interface (the entries of a `map[string]interface{}` are of the second sort). -/
def Slot.asMap : Slot → Option (GoType × List (String × Slot))
  | .val (.map e es) => some (e, es)
  | .iface (some (.map e es)) => some (e, es)
  | _ => none

/-- In the words of the specification: the keys `k1 ... kn` followed through a
nesting of mappings, starting in the mapping of element type `e` and entries
`es`.  `Except.ok x`: every key is present and `x` is stored under `kn` in the
innermost mapping.  `Except.error (ty, k, rest)`: `k` is the first absent key,
`ty` the type of the mapping it is absent from, `rest` the keys after it.
`none`: there is no key, or a value on the way is not a mapping. -/
def followKeys : GoType → List (String × Slot) → List String →
    Option (Except (GoType × String × List String) Slot)
  | _, _, [] => none
  | e, es, k :: ks =>
    match lookupKey k es with
    | none => some (.error (.map e, k, ks))
    | some x =>
      match ks with
      | [] => some (.ok x)
      | _ :: _ =>
        match x.asMap with
        | none => none
        | some (e1, es1) => followKeys e1 es1 ks

/-! ## Values of the package's tests -/

/-- A heap for examples without pointers: every cell holds the string "x". -/
def flatHeap : Heap := fun _ => .val (.str "x")

/-- The slice `[]int{1, 2, 3}` of the error tests. -/
def ints123 : GoValue :=
  .slice (.named "int") [.val (.int 1), .val (.int 2), .val (.int 3)]

/-- The value `struct \x7b Name string \x7d \x7b Name: "somename" \x7d` of the error
tests. -/
def nameStruct : GoValue :=
  .struct (.named "struct \x7b Name string \x7d") [("Name", true, .val (.str "somename"))] []

/-- The registry value of the nested-map tests:
`map[string]interface{}{"name": map[string]interface{}{"value": "somename"}}`. -/
def nestedMap : GoValue :=
  .map GoType.emptyInterface
    [("name", .iface (some (.map GoType.emptyInterface
      [("value", .iface (some (.str "somename")))])))]

/-- The type `Person` of the pointer tests. -/
def personType : GoType := .named "resolver.Person"

/-- A `Person` value: `Name *string`, `Parent *Person`, `Parents []*Person`,
the pointers given by their addresses. -/
def person (name : Option Nat) (parent : Option Nat) (parents : List Nat) : GoValue :=
  .struct personType
    [("Name", true, .val (.ptr (.named "string") name)),
     ("Parent", true, .val (.ptr personType parent)),
     ("Parents", true,
        .val (.slice (.ptr personType) (parents.map fun a => .val (.ptr personType (some a)))))]
    []

/-- The `user` of the pointer tests. -/
def testUser : GoValue := person (some 0) (some 2) [3]

/-- The memory of the pointer tests: the two names at addresses 0 and 1, the
persons `user` points to, directly or not, at addresses 2 to 6. -/
def personHeap : Heap := fun a =>
  match a with
  | 0 => .val (.str "first person name")
  | 1 => .val (.str "second person name")
  | 2 => .val (person (some 1) none [])
  | 3 => .val (person (some 1) (some 4) [5])
  | 4 => .val (person (some 0) none [])
  | 5 => .val (person (some 1) (some 6) [])
  | 6 => .val (person (some 0) none [])
  | _ => .val (.str "")

/-! ## Chains of records -/

/-- One link of a chain of records, in the words of the specification: the
record holds a non-nil pointer to the next record, directly in the field
`field`, or as an element of the sequence of pointers in the field `field`,
at the position the token `index` denotes. -/
inductive Link where
  | direct (field : String)
  | element (field : String) (index : String)

/-- The tokens that take a link. -/
def Link.tokens : Link → List String
  | .direct f => [f]
  | .element f i => [f, i]

/-- The tokens that take the links of a chain, in order. -/
def chainTokens : List Link → List String
  | [] => []
  | l :: ls => l.tokens ++ chainTokens ls

/-- The record a location points to, when the location holds a non-nil pointer
to a record. -/
def pointee (h : Heap) : Slot → Option GoValue
  | .val (.ptr _ (some a)) =>
    match h a with
    | .val (.struct ty fields nilEmbedded) => some (.struct ty fields nilEmbedded)
    | _ => none
  | _ => none

/-- The elements of a location that holds a slice or an array. -/
def Slot.elements : Slot → Option (List Slot)
  | .val (.slice _ xs) => some xs
  | .val (.array _ xs) => some xs
  | _ => none

/-- The next record of a chain: the record `r` holds, in an exported field, a
non-nil pointer to it, directly or as an element of a sequence of pointers. -/
def followLink (h : Heap) (r : GoValue) (l : Link) : Option GoValue :=
  match r with
  | .struct _ fields _ =>
    match l with
    | .direct f =>
      match lookupField f fields with
      | some (true, x) => pointee h x
      | _ => none
    | .element f i =>
      match lookupField f fields with
      | some (true, x) =>
        match x.elements, Atoi i with
        | some xs, some j => if 0 ≤ j then (xs[j.toNat]?).bind (pointee h) else none
        | _, _ => none
      | _ => none
  | _ => none

/-- The last record of the chain that starts in the record `r` and follows the
given links; `none` when `r` is no record or a link is missing. -/
def followChain (h : Heap) : GoValue → List Link → Option GoValue
  | r, [] =>
    match r with
    | .struct ty fields nilEmbedded => some (.struct ty fields nilEmbedded)
    | _ => none
  | r, l :: ls => (followLink h r l).bind (fun next => followChain h next ls)

/-- The value `struct \x7b name string \x7d \x7b name: "x" \x7d`: a struct whose only
field is not exported. -/
def privateStruct : GoValue :=
  .struct (.named "struct \x7b name string \x7d") [("name", false, .val (.str "x"))] []

/-- `AddValue(name, v)` followed by `Resolve(path)` on the same registry. -/
def addThenResolve (r : concreteResolver) (h : Heap) (name : String) (v : Option GoValue)
    (path : String) : Go (Option GoValue × Option String) :=
  match r.AddValue name v with
  | .panics m => .panics m
  | .ret r1 => r1.Resolve h path

/-- `AddValue(name, v1)`, then `AddValue(name, v2)`, then `Resolve(path)` on the
same registry. -/
def addTwiceThenResolve (r : concreteResolver) (h : Heap) (name : String)
    (v1 v2 : Option GoValue) (path : String) : Go (Option GoValue × Option String) :=
  match r.AddValue name v1 with
  | .panics m => .panics m
  | .ret r1 => addThenResolve r1 h name v2 path

/-- A token free of the three characters the path syntax reads: `.`, `[`, `]`. -/
def isPlainToken (t : String) : Bool :=
  t.data.all (fun c => c != '.' && c != '[' && c != ']')

/-- The map `map[string]interface{}{"": 1}`, which has the empty string as a key. -/
def emptyKeyMap : GoValue :=
  .map GoType.emptyInterface [("", .iface (some (.int 1)))]

/-- One layer of indirection or genericity, in the words of the specification:
the content of a location of interface type, or what a pointer points to;
`none` for a Value that is neither an interface nor a pointer. -/
def peel (h : Heap) : Value → Option Value
  | .of (.iface dyn) _ => some (ValueOf dyn)
  | .of (.val (.ptr elem addr)) ro => some (Value.Elem h (.of (.val (.ptr elem addr)) ro))
  | _ => none

/-- The map `map[string]interface{}{"p": &Person{...}}`, whose entry is an
interface value that holds the pointer to the person at address 2. -/
def pointerInMap : GoValue :=
  .map GoType.emptyInterface [("p", .iface (some (.ptr personType (some 2))))]

/-- The memory of the pointer tests with one more cell: address 7 holds a
`*Person`, the pointer to the person at address 2. -/
def pointerHeap : Heap := fun a =>
  match a with
  | 7 => .val (.ptr personType (some 2))
  | n => personHeap n

/-- A memory with a cycle: every cell holds a `Node` whose field `Next` points
to the cell at address 0. -/
def loopHeap : Heap := fun _ =>
  .val (.struct (.named "resolver.Node")
    [("Next", true, .val (.ptr (.named "resolver.Node") (some 0))),
     ("Name", true, .val (.str "n"))] [])

/-- The value `struct{ items []int }{items: []int{1, 2, 3}}`: a slice
in a field that is not exported. -/
def privateItems : GoValue :=
  .struct (.named "struct \x7b items []int \x7d")
    [("items", false, .val (.slice (.named "int") [.val (.int 1), .val (.int 2), .val (.int 3)]))]
    []

/-- The value `struct{ p *string }{p: &s}`: a non-nil pointer (to the
cell at address 0) in a field that is not exported. -/
def privatePointer : GoValue :=
  .struct (.named "struct \x7b p *string \x7d")
    [("p", false, .val (.ptr (.named "string") (some 0)))] []

/-- A record of the type `type T struct{ Name string; next *T }`, whose link
to the next record is not exported. -/
def linked (name : String) (next : Option Nat) : GoValue :=
  .struct (.named "resolver.T")
    [("Name", true, .val (.str name)), ("next", false, .val (.ptr (.named "resolver.T") next))]
    []

/-- A memory whose cells all hold the last record `T{Name: "b"}` of a chain. -/
def linkedHeap : Heap := fun _ => .val (linked "b" none)

/-- The value `Outer{}` of the types `type Inner struct{ Name string }` and
`type Outer struct{ *Inner }`: the embedded pointer is nil, and the name `Name`
is promoted from behind it. -/
def outerNil : GoValue :=
  .struct (.named "resolver.Outer")
    [("Inner", true, .val (.ptr (.named "resolver.Inner") none))] ["Name"]

/-- The map `map[int]string{1: "a"}`: a `string` is not assignable to its key
type, and it has no entry under a string key. -/
def intKeyMap : GoValue :=
  .mapOf (.named "int") (.named "string") false []

/-! ## Cutting and splitting -/

theorem cut_eq_none {sep : Char} {s : List Char} : cut sep s = none ↔ sep ∉ s := by
  induction s with
  | nil => simp [cut]
  | cons c cs ih =>
    by_cases hc : c = sep
    · simp [cut, hc]
    · have hc2 : ¬ sep = c := fun e => hc e.symm
      cases hcs : cut sep cs with
      | none => simp [cut, hc, hc2, hcs, ih.mp hcs]
      | some p =>
        have : ¬ sep ∉ cs := fun hn => by simp [ih.mpr hn] at hcs
        simp only [not_not] at this
        simp [cut, hc, hcs, this]

theorem cut_eq_some {sep : Char} {s a b : List Char} :
    cut sep s = some (a, b) ↔ s = a ++ sep :: b ∧ sep ∉ a := by
  induction s generalizing a b with
  | nil => simp [cut]
  | cons c cs ih =>
    by_cases hc : c = sep
    · subst hc
      constructor
      · intro h
        simp [cut] at h
        obtain ⟨rfl, rfl⟩ := h
        simp
      · rintro ⟨h1, h2⟩
        cases a with
        | nil => simp at h1; simp [cut, h1]
        | cons x xs => simp at h1; simp [h1.1] at h2
    · cases hcs : cut sep cs with
      | none =>
        simp only [cut, hc, hcs, if_false]
        constructor
        · intro h; cases h
        · rintro ⟨h1, h2⟩
          cases a with
          | nil => simp at h1; exact absurd h1.1 hc
          | cons x xs =>
            simp at h1
            have := (ih (a := xs)).mpr ⟨h1.2, fun hm => h2 (List.mem_cons_of_mem _ hm)⟩
            rw [hcs] at this; cases this
      | some p =>
        obtain ⟨a0, b0⟩ := p
        have h0 := ih.mp hcs
        simp only [cut, hc, hcs, if_false]
        constructor
        · intro h
          simp at h
          obtain ⟨rfl, rfl⟩ := h
          refine ⟨by simp [h0.1], ?_⟩
          intro hm
          rcases List.mem_cons.mp hm with e | e
          · exact hc e.symm
          · exact h0.2 e
        · rintro ⟨h1, h2⟩
          cases a with
          | nil => simp at h1; exact absurd h1.1 hc
          | cons x xs =>
            simp at h1
            have := (ih (a := xs)).mpr ⟨h1.2, fun hm => h2 (List.mem_cons_of_mem _ hm)⟩
            rw [hcs] at this
            simp at this
            simp [h1.1, this]

theorem cut_append {sep : Char} {a : List Char} (b : List Char) (ha : sep ∉ a) :
    cut sep (a ++ sep :: b) = some (a, b) :=
  cut_eq_some.mpr ⟨rfl, ha⟩

theorem splitNChars_two (sep : Char) (s : List Char) :
    splitNChars sep 2 s = match cut sep s with
      | none => [s]
      | some (a, b) => [a, b] := by
  simp only [splitNChars]

/-- `SplitN(s, sep, 2)` of a string without `sep` is the string itself. -/
theorem SplitN_two_of_not_mem {sep : Char} {s : String} (hs : sep ∉ s.data) :
    SplitN s sep 2 = [s] := by
  simp [SplitN, splitNChars_two, cut_eq_none.mpr hs]

/-- `SplitN(t + sep + r, sep, 2)` is `[t, r]` when `t` has no `sep`. -/
theorem SplitN_two_append {sep : Char} {t : String} (r : String) (ht : sep ∉ t.data) :
    SplitN (t ++ String.singleton sep ++ r) sep 2 = [t, r] := by
  have : (t ++ String.singleton sep ++ r).data = t.data ++ sep :: r.data := by
    simp [String.singleton]
  simp [SplitN, splitNChars_two, this, cut_append _ ht]

/-- The two shapes of `SplitN(s, sep, 2)`. -/
theorem SplitN_two_cases (sep : Char) (s : String) :
    (sep ∉ s.data ∧ SplitN s sep 2 = [s]) ∨
    ∃ t r : String, s = t ++ String.singleton sep ++ r ∧ sep ∉ t.data ∧
      SplitN s sep 2 = [t, r] := by
  cases hc : cut sep s.data with
  | none =>
    left
    exact ⟨cut_eq_none.mp hc, SplitN_two_of_not_mem (cut_eq_none.mp hc)⟩
  | some p =>
    obtain ⟨a, b⟩ := p
    right
    obtain ⟨h1, h2⟩ := cut_eq_some.mp hc
    refine ⟨⟨a⟩, ⟨b⟩, ?_, h2, ?_⟩
    · apply String.ext
      simp [String.singleton, h1]
    · simp [SplitN, splitNChars_two, hc]

theorem length_append_sep (sep : Char) (t r : String) :
    (t ++ String.singleton sep ++ r).length = t.length + 1 + r.length := by
  simp [String.length_append, String.singleton]

/-! ## Fuel is never used up -/

theorem resolveAux_fuel (h : Heap) :
    ∀ (n m : Nat) (value : Value) (s : String), s.length < n → s.length < m →
      resolveAux h n value s = resolveAux h m value s := by
  intro n
  induction n with
  | zero => intro m value s hn; omega
  | succ n ih =>
    intro m value s hn hm
    cases m with
    | zero => omega
    | succ m =>
      rcases SplitN_two_cases '.' s with ⟨_, hsp⟩ | ⟨t, r, hs, _, hsp⟩
      · simp only [resolveAux, hsp]
      · have hlen : r.length < s.length := by
          rw [hs, length_append_sep]; omega
        have key : ∀ v, resolveAux h n v r = resolveAux h m v r :=
          fun v => ih m v r (by omega) (by omega)
        simp only [resolveAux, hsp, key]

/-- One call of `resolve` on a path that is a single token. -/
theorem resolve_last (h : Heap) (value : Value) {tok : String} (ht : '.' ∉ tok.data) :
    resolve h value tok =
      match unwrap h value with
      | .panics m => .panics m
      | .ret u =>
        match dispatch u tok with
        | .panics m => .panics m
        | .error e => .ret (none, some e)
        | .ok newValue =>
          if !newValue.IsValid then
            match u.Type with
            | .panics m => .panics m
            | .ret ty =>
              .ret (none, some (ty.String ++ " does not have field " ++ tok
                ++ ": nothing left to resolve"))
          else returnInterface newValue := by
  simp only [resolve, resolveAux, SplitN_two_of_not_mem ht]

/-- One call of `resolve` on a path with more than one token. -/
theorem resolve_more (h : Heap) (value : Value) {tok : String} (rest : String)
    (ht : '.' ∉ tok.data) :
    resolve h value (tok ++ "." ++ rest) =
      match unwrap h value with
      | .panics m => .panics m
      | .ret u =>
        match dispatch u tok with
        | .panics m => .panics m
        | .error e => .ret (none, some e)
        | .ok newValue =>
          if !newValue.IsValid then
            match u.Type with
            | .panics m => .panics m
            | .ret ty =>
              .ret (none, some (ty.String ++ " does not have field " ++ tok
                ++ ": " ++ rest ++ " left to resolve"))
          else resolve h newValue rest := by
  have hsp : SplitN (tok ++ "." ++ rest) '.' 2 = [tok, rest] := SplitN_two_append rest ht
  have hlen : rest.length < (tok ++ "." ++ rest).length := by
    have := length_append_sep '.' tok rest
    simp only [String.singleton] at this
    change (tok ++ "." ++ rest).length = _ at this
    omega
  have key : ∀ v, resolveAux h (tok ++ "." ++ rest).length v rest = resolve h v rest :=
    fun v => resolveAux_fuel h _ (rest.length + 1) v rest hlen (by omega)
  show resolveAux h ((tok ++ "." ++ rest).length + 1) value _ = _
  rw [resolveAux]
  simp only [hsp, key]

/-! ## The full split -/

theorem splitNChars_fuel (sep : Char) :
    ∀ (n m : Nat) (s : List Char), s.length < n → s.length < m →
      splitNChars sep n s = splitNChars sep m s := by
  intro n
  induction n with
  | zero => intro m s hn; omega
  | succ n ih =>
    intro m s hn hm
    cases m with
    | zero => omega
    | succ m =>
      cases s with
      | nil =>
        cases n <;> cases m <;> simp [splitNChars, cut]
      | cons c cs =>
        cases n with
        | zero => simp at hn
        | succ n =>
          cases m with
          | zero => simp at hm
          | succ m =>
            simp only [splitNChars]
            cases hc : cut sep (c :: cs) with
            | none => rfl
            | some p =>
              obtain ⟨a, b⟩ := p
              have hb := (cut_eq_some.mp hc).1
              have hlen : b.length < (c :: cs).length := by
                rw [hb]; simp; omega
              simp only
              rw [ih (m + 1) b (by omega) (by omega)]

theorem Split_of_not_mem {sep : Char} {s : String} (hs : sep ∉ s.data) :
    Split s sep = [s] := by
  unfold Split SplitN
  cases hl : s.length with
  | zero => simp [splitNChars]
  | succ k => simp [splitNChars, cut_eq_none.mpr hs]

theorem Split_append {sep : Char} {t : String} (r : String) (ht : sep ∉ t.data) :
    Split (t ++ String.singleton sep ++ r) sep = t :: Split r sep := by
  have hd : (t ++ String.singleton sep ++ r).data = t.data ++ sep :: r.data := by
    simp [String.singleton]
  have hl : (t ++ String.singleton sep ++ r).length + 1 = (t.length + r.length) + 2 := by
    rw [length_append_sep]; omega
  unfold Split SplitN
  rw [hl, hd]
  simp only [splitNChars, cut_append _ ht, List.map_cons]
  have hr : r.data.length = r.length := rfl
  rw [splitNChars_fuel sep (t.length + r.length + 1) (r.length + 1) r.data
    (by omega) (by omega)]

/-- The full split is never empty. -/
theorem Split_ne_nil (sep : Char) (s : String) : Split s sep ≠ [] := by
  rcases SplitN_two_cases sep s with ⟨hs, _⟩ | ⟨t, r, hs, ht, _⟩
  · simp [Split_of_not_mem hs]
  · rw [hs, Split_append r ht]; simp

/-- How the full split and the two-way split of the same string fit. -/
theorem Split_cases (sep : Char) (s : String) :
    (sep ∉ s.data ∧ Split s sep = [s] ∧ SplitN s sep 2 = [s]) ∨
    ∃ t r : String, s = t ++ String.singleton sep ++ r ∧ sep ∉ t.data ∧
      Split s sep = t :: Split r sep ∧ SplitN s sep 2 = [t, r] := by
  rcases SplitN_two_cases sep s with ⟨hs, h2⟩ | ⟨t, r, hs, ht, h2⟩
  · exact Or.inl ⟨hs, Split_of_not_mem hs, h2⟩
  · exact Or.inr ⟨t, r, hs, ht, by rw [hs, Split_append r ht], h2⟩

theorem Join_cons_of_ne_nil (a : String) {l : List String} (sep : String) (hl : l ≠ []) :
    Join (a :: l) sep = a ++ sep ++ Join l sep := by
  cases l with
  | nil => exact absurd rfl hl
  | cons b rest => rfl

/-- Joining the pieces of the full split gives the string back. -/
theorem Join_Split (sep : Char) (s : String) :
    Join (Split s sep) (String.singleton sep) = s := by
  generalize hn : s.length = n
  induction n using Nat.strong_induction_on generalizing s with
  | _ n ih =>
    rcases Split_cases sep s with ⟨_, h1, _⟩ | ⟨t, r, hs, ht, h1, _⟩
    · rw [h1]; rfl
    · rw [h1, Join_cons_of_ne_nil _ _ (Split_ne_nil sep r)]
      have hlen : r.length < n := by
        rw [← hn, hs, length_append_sep]; omega
      rw [ih r.length hlen r rfl, hs]

/-- No piece of the full split contains the separator. -/
theorem not_mem_of_mem_Split (sep : Char) (s : String) :
    ∀ t ∈ Split s sep, sep ∉ t.data := by
  generalize hn : s.length = n
  induction n using Nat.strong_induction_on generalizing s with
  | _ n ih =>
    rcases Split_cases sep s with ⟨hs, h1, _⟩ | ⟨t, r, hs, ht, h1, _⟩
    · intro x hx
      rw [h1] at hx
      simp at hx
      rw [hx]; exact hs
    · intro x hx
      rw [h1] at hx
      rcases List.mem_cons.mp hx with e | e
      · rw [e]; exact ht
      · have hlen : r.length < n := by
          rw [← hn, hs, length_append_sep]; omega
        exact ih r.length hlen r rfl x e

/-- A string whose full split is `t :: ts`, read back from that split. -/
theorem Split_eq_cons {s t : String} {ts : List String} (hs : Split s '.' = t :: ts) :
    '.' ∉ t.data ∧
    ((ts = [] ∧ s = t) ∨
     (ts ≠ [] ∧ s = t ++ "." ++ Join ts "." ∧ Split (Join ts ".") '.' = ts)) := by
  rcases Split_cases '.' s with ⟨hn, h1, _⟩ | ⟨t0, r, hs0, ht0, h1, _⟩
  · rw [h1] at hs
    simp at hs
    obtain ⟨rfl, rfl⟩ := hs
    exact ⟨hn, Or.inl ⟨rfl, rfl⟩⟩
  · rw [h1] at hs
    simp at hs
    obtain ⟨rfl, rfl⟩ := hs
    refine ⟨ht0, Or.inr ⟨Split_ne_nil '.' r, ?_, ?_⟩⟩
    · have := Join_Split '.' r
      rw [show String.singleton '.' = "." from rfl] at this
      rw [this]
      exact hs0
    · have := Join_Split '.' r
      rw [show String.singleton '.' = "." from rfl] at this
      rw [this]

/-- Successful steps may be taken in advance: if the full split of `s` is
`pre ++ ts` and the tokens `pre` lead from `value` to `v`, then resolving `s`
from `value` is resolving the join of `ts` from `v`. -/
theorem resolve_walk (h : Heap) :
    ∀ (pre : List String) (s : String) (value v : Value) (ts : List String),
      Split s '.' = pre ++ ts → ts ≠ [] → walk h value pre = some v →
      resolve h value s = resolve h v (Join ts ".") := by
  intro pre
  induction pre with
  | nil =>
    intro s value v ts hs hts hw
    simp only [walk, Option.some.injEq] at hw
    subst hw
    have := Join_Split '.' s
    rw [show String.singleton '.' = "." from rfl] at this
    simp only [List.nil_append] at hs
    rw [← hs, this]
  | cons p pre ih =>
    intro s value v ts hs hts hw
    obtain ⟨hp, hcase⟩ := Split_eq_cons (by simpa using hs : Split s '.' = p :: (pre ++ ts))
    rcases hcase with ⟨hnil, _⟩ | ⟨_, hseq, hsplit⟩
    · simp at hnil; exact absurd hnil.2 hts
    · rw [hseq, resolve_more h value _ hp]
      simp only [walk] at hw
      cases hu : unwrap h value with
      | panics m => simp [hu] at hw
      | ret u =>
        simp only [hu] at hw ⊢
        cases hd : dispatch u p with
        | panics m => simp [hd] at hw
        | error e => simp [hd] at hw
        | ok nv =>
          simp only [hd] at hw ⊢
          by_cases hv : nv.IsValid = true
          · simp only [hv, if_true] at hw
            simp only [hv, Bool.not_true, Bool.false_eq_true, if_false]
            exact ih _ nv v ts hsplit hts hw
          · simp [hv] at hw

/-! ## The registry and the map handed to `DirectResolve` -/

theorem GoValue.Kind_ne_Interface (v : GoValue) : v.Kind ≠ .Interface := by
  cases v <;> simp [GoValue.Kind]

theorem ValueOf_Kind_ne_Interface (v : Option GoValue) : (ValueOf v).Kind ≠ .Interface := by
  cases v with
  | none => simp [ValueOf, Value.Kind]
  | some x => simpa [ValueOf, Value.Kind] using x.Kind_ne_Interface

/-- Unwrapping a location of interface type is unwrapping what `ValueOf` makes
of its content. -/
theorem unwrap_iface (h : Heap) (v : Option GoValue) :
    unwrap h (.of (.iface v) false) = unwrap h (ValueOf v) := by
  cases v with
  | none => simp [unwrap, ValueOf, Value.Kind, Value.Interface, Slot.toInterface]
  | some x =>
    cases x <;>
      simp [unwrap, ValueOf, Value.Kind, Value.Interface, GoValue.Kind, Slot.toInterface]

/-- The result of `resolve` depends on the Value only through its unwrapping. -/
theorem resolve_congr_unwrap (h : Heap) {v₁ v₂ : Value} (s : String)
    (hu : unwrap h v₁ = unwrap h v₂) : resolve h v₁ s = resolve h v₂ s := by
  simp only [resolve, resolveAux, hu]

theorem lookupKey_argsValue (key : String) (entries : List (String × Option GoValue)) :
    lookupKey key (entries.map (fun e => (e.1, Slot.iface e.2))) =
      (entries.find? (fun e => e.1 = key)).map (fun e => Slot.iface e.2) := by
  induction entries with
  | nil => rfl
  | cons e es ih =>
    by_cases hk : e.1 = key
    · simp [lookupKey, List.find?, hk]
    · simp [lookupKey, List.find?, hk, ih]

theorem unwrap_argsValue (h : Heap) (args : Option (List (String × Option GoValue))) :
    unwrap h (ValueOf (some (argsValue args))) = .ret (ValueOf (some (argsValue args))) := by
  simp [unwrap, ValueOf, argsValue, Value.Kind, GoValue.Kind]

/-- Looking a key up in the registry map through `reflect`. -/
theorem dispatch_argsValue (args : Option (List (String × Option GoValue))) (key : String) :
    dispatch (ValueOf (some (argsValue args))) key =
      .ok (match mapGet args key with
        | (_, false) => Value.zero
        | (v, true) => Value.of (.iface v) false) := by
  cases args with
  | none =>
    simp [dispatch, ValueOf, argsValue, Value.Kind, GoValue.Kind, Value.MapIndex, lookupKey,
      mapGet]
  | some entries =>
    simp only [dispatch, ValueOf, argsValue, Value.Kind, GoValue.Kind, Value.MapIndex,
      Option.getD_some, lookupKey_argsValue, mapGet, reduceCtorEq, or_self, if_false, if_true]
    cases entries.find? (fun e => e.1 = key) with
    | none => rfl
    | some e => rfl

/-- C1: for every registry map `args` and every path `p`, the registry built
from `args` resolves `p` to the value `x` without error exactly when
`DirectResolve`, handed the same map as its value, resolves `p` to `x` without
error. -/
theorem C1_Resolve_iff_DirectResolve (h : Heap)
    (args : Option (List (String × Option GoValue))) (p : String) (x : Option GoValue) :
    (NewResolver args).Resolve h p = .ret (x, none) ↔
      DirectResolve h (some (argsValue args)) p = .ret (x, none) := by
  have hkind : (ValueOf (some (argsValue args))).Kind = .Map := by
    simp [ValueOf, argsValue, Value.Kind, GoValue.Kind]
  simp only [concreteResolver.Resolve, DirectResolve, NewResolver, hkind, if_true]
  rcases SplitN_two_cases '.' (formatExpression p) with ⟨hs, hsp⟩ | ⟨t, r, hs, ht, hsp⟩
  · rw [hsp]
    by_cases he : formatExpression p = ""
    · simp [he]
    · simp only [he, if_false]
      rw [resolve_last h _ hs]
      simp only [unwrap_argsValue, dispatch_argsValue]
      rcases hm : mapGet args (formatExpression p) with ⟨v, b⟩
      cases b with
      | false => simp [Value.IsValid, Value.Type, ValueOf]
      | true => simp [Value.IsValid, Value.Interface, returnInterface, Slot.toInterface]
  · rw [hsp]
    by_cases he : t = ""
    · simp [he]
    · simp only [he, if_false]
      rw [hs, show String.singleton '.' = "." from rfl, resolve_more h _ r ht]
      simp only [unwrap_argsValue, dispatch_argsValue]
      rcases hm : mapGet args t with ⟨v, b⟩
      cases b with
      | false => simp [Value.IsValid, Value.Type, ValueOf]
      | true =>
        simp only [Value.IsValid, Bool.not_true, Bool.false_eq_true, if_false]
        rw [resolve_congr_unwrap h r (unwrap_iface h v)]

/-! ## Telling error texts apart -/

/-- A text that ends like `l` differs from a text with another last character. -/
theorem append_ne_of_getLast (x : String) {l e : String} {c d : Char}
    (hl : l.data.getLast? = some c) (he : e.data.getLast? = some d) (hcd : c ≠ d) :
    x ++ l ≠ e := by
  intro heq
  have h1 : (x ++ l).data.getLast? = some c := by
    have hne : l.data ≠ [] := by
      intro h0; rw [h0] at hl; simp at hl
    rw [String.data_append, List.getLast?_append_of_ne_nil _ hne, hl]
  rw [heq, he] at h1
  exact hcd (Option.some.inj h1).symm

/-- The shape dispatch, read as one case distinction on the kind. -/
theorem dispatch_eq (u : Value) (t : String) :
    dispatch u t =
      if u.Kind = .Slice ∨ u.Kind = .Array then
        match Atoi t with
        | none => .error "could not parse index of array"
        | some index =>
          if index ≥ (u.Len : Int) ∨ index < 0 then .error "index is out of range"
          else .ok (u.Index index.toNat)
      else if u.Kind = .Struct then
        match u.FieldByName t with
        | .panics m => .panics m
        | .ret found => .ok found
      else if u.Kind = .Map then
        match u.MapIndex t with
        | .panics m => .panics m
        | .ret found => .ok found
      else .ok .zero := by
  unfold dispatch
  by_cases hs : u.Kind = .Slice ∨ u.Kind = .Array
  · have h1 : u.Kind ≠ .Struct := by rcases hs with e | e <;> simp [e]
    have h2 : u.Kind ≠ .Map := by rcases hs with e | e <;> simp [e]
    simp only [hs, if_true, h1, h2, if_false]
    cases Atoi t with
    | none => rfl
    | some i =>
      by_cases hc : i ≥ (u.Len : Int) ∨ i < 0
      · simp only [hc, if_true]
      · simp only [hc, if_false]
  · simp only [hs, if_false]
    by_cases h1 : u.Kind = .Struct
    · have h2 : u.Kind ≠ .Map := by simp [h1]
      simp only [h1, if_true, h2, if_false]
      cases u.FieldByName t with
      | panics m => rfl
      | ret found => rfl
    · simp only [h1, if_false]

/-- The errors of the sequence branch are the only early returns of the shape
dispatch. -/
theorem dispatch_error {u : Value} {t e : String} (hd : dispatch u t = .error e) :
    e = "could not parse index of array" ∨ e = "index is out of range" := by
  rw [dispatch_eq] at hd
  split at hd
  · split at hd
    · simp only [Step.error.injEq] at hd
      exact Or.inl hd.symm
    · split at hd
      · simp only [Step.error.injEq] at hd
        exact Or.inr hd.symm
      · cases hd
  · split at hd
    · split at hd <;> cases hd
    · split at hd
      · split at hd <;> cases hd
      · cases hd

theorem resolveAux_ne_empty (h : Heap) :
    ∀ (n : Nat) (value : Value) (s : String),
      resolveAux h n value s ≠ .ret (none, some "could not resolve: expression is empty") := by
  intro n
  induction n with
  | zero => intro value s; simp [resolveAux]
  | succ n ih =>
    intro value s
    have hL1 : ∀ x : String, x ++ ": nothing left to resolve" ≠
        "could not resolve: expression is empty" :=
      fun x => append_ne_of_getLast x (c := 'e') (d := 'y') rfl rfl (by decide)
    have hL2 : ∀ x : String, x ++ " left to resolve" ≠
        "could not resolve: expression is empty" :=
      fun x => append_ne_of_getLast x (c := 'e') (d := 'y') rfl rfl (by decide)
    simp only [resolveAux]
    cases unwrap h value with
    | panics m => simp
    | ret u =>
      simp only
      cases SplitN s '.' 2 with
      | nil => simp
      | cons t more =>
        simp only
        cases hd : dispatch u t with
        | error e =>
          rcases dispatch_error hd with rfl | rfl <;> simp
        | panics m => simp
        | ok nv =>
          simp only
          by_cases hv : nv.IsValid = true
          · simp only [hv, Bool.not_true, Bool.false_eq_true, if_false]
            cases more with
            | nil =>
              simp only [returnInterface]
              cases nv.Interface with
              | panics m => simp
              | ret i => simp
            | cons r _ => exact ih nv r
          · simp only [hv, Bool.not_false, if_true]
            cases u.Type with
            | panics m => simp
            | ret ty =>
              cases more with
              | nil => simpa using hL1 _
              | cons r _ => simpa using hL2 _

/-- The traversal engine never reports an empty expression. -/
theorem resolve_ne_empty (h : Heap) (value : Value) (s : String) :
    resolve h value s ≠ .ret (none, some "could not resolve: expression is empty") :=
  resolveAux_ne_empty h _ value s

theorem head?_Split (sep : Char) (s : String) :
    (Split s sep).head? = (SplitN s sep 2).head? := by
  rcases Split_cases sep s with ⟨_, h1, h2⟩ | ⟨t, r, _, _, h1, h2⟩
  · rw [h1, h2]
  · rw [h1, h2]; rfl

theorem first_token_empty_iff (p : String) :
    (formatExpression p = "" ∨ (tokens p).head? = some "") ↔
      (SplitN (formatExpression p) '.' 2).head? = some "" := by
  unfold tokens
  rw [head?_Split]
  constructor
  · rintro (h0 | h0)
    · rw [h0]; rfl
    · exact h0
  · exact Or.inr

/-- C2: whatever the registry or the supplied value holds, `Resolve(p)` and
`DirectResolve(v, p)` return a nil value with the error
"could not resolve: expression is empty" exactly when the normalized form of
`p` is empty or its first token is the empty string. -/
theorem C2_empty_expression (h : Heap) (r : concreteResolver) (v : Option GoValue)
    (p : String) :
    (r.Resolve h p = .ret (none, some "could not resolve: expression is empty") ↔
      (formatExpression p = "" ∨ (tokens p).head? = some "")) ∧
    (DirectResolve h v p = .ret (none, some "could not resolve: expression is empty") ↔
      (formatExpression p = "" ∨ (tokens p).head? = some "")) := by
  rw [first_token_empty_iff]
  have hfound : ∀ x : String, x ++ " was not found" ≠
      "could not resolve: expression is empty" :=
    fun x => append_ne_of_getLast x (c := 'd') (d := 'y') rfl rfl (by decide)
  simp only [concreteResolver.Resolve, DirectResolve]
  cases hsp : SplitN (formatExpression p) '.' 2 with
  | nil =>
    rcases SplitN_two_cases '.' (formatExpression p) with ⟨_, h2⟩ | ⟨_, _, _, _, h2⟩ <;>
      rw [hsp] at h2 <;> simp at h2
  | cons t more =>
    by_cases ht : t = ""
    · simp [ht]
    · simp only [ht, if_false, List.head?_cons, Option.some.injEq, iff_false]
      constructor
      · rcases hm : mapGet r.args t with ⟨x, b⟩
        cases b with
        | false => simpa using hfound _
        | true =>
          cases more with
          | nil => simp
          | cons rest _ => exact resolve_ne_empty h _ rest
      · split
        · exact resolve_ne_empty h _ _
        · cases more with
          | nil => simp
          | cons rest _ => exact resolve_ne_empty h _ rest

/-- C2 at the inputs the claim names: the paths "", "." and "[0]". -/
theorem C2_examples (h : Heap) (r : concreteResolver) (v : Option GoValue) :
    (∀ p ∈ ["", ".", "[0]"],
      r.Resolve h p = .ret (none, some "could not resolve: expression is empty") ∧
      DirectResolve h v p = .ret (none, some "could not resolve: expression is empty")) := by
  intro p hp
  simp only [List.mem_cons, List.mem_singleton, List.not_mem_nil, or_false] at hp
  rcases hp with rfl | rfl | rfl <;> exact ⟨rfl, rfl⟩

/-! ## Normalization -/

theorem replaceChars_append (old : Char) (new x y : List Char) :
    replaceChars old new (x ++ y) = replaceChars old new x ++ replaceChars old new y := by
  induction x with
  | nil => rfl
  | cons c cs ih => simp [replaceChars, ih]

/-- Normalization works character by character. -/
theorem formatExpression_append (x y : String) :
    formatExpression (x ++ y) = formatExpression x ++ formatExpression y := by
  apply String.ext
  simp [formatExpression, Replace, replaceChars_append]

/-- C3: for all strings `a` and `i`, the bracketed spelling `a[i]` and the
dotted spelling `a.i` have the same normalized form and so the same token
sequence; hence, for every registry and every supplied value, `Resolve` and
`DirectResolve` give the same outcome (same value or same error text) on both
spellings. -/
theorem C3_bracket_dot_equivalent (a i : String) :
    formatExpression (a ++ "[" ++ i ++ "]") = formatExpression (a ++ "." ++ i) ∧
    tokens (a ++ "[" ++ i ++ "]") = tokens (a ++ "." ++ i) ∧
    (∀ (h : Heap) (r : concreteResolver),
      r.Resolve h (a ++ "[" ++ i ++ "]") = r.Resolve h (a ++ "." ++ i)) ∧
    (∀ (h : Heap) (v : Option GoValue),
      DirectResolve h v (a ++ "[" ++ i ++ "]") = DirectResolve h v (a ++ "." ++ i)) := by
  have hf : formatExpression (a ++ "[" ++ i ++ "]") = formatExpression (a ++ "." ++ i) := by
    simp only [formatExpression_append]
    rw [show formatExpression "[" = "." from rfl, show formatExpression "]" = "" from rfl,
      show formatExpression "." = "." from rfl]
    simp
  refine ⟨hf, ?_, ?_, ?_⟩
  · simp only [tokens, hf]
  · intro h r
    simp only [concreteResolver.Resolve, hf]
  · intro h v
    simp only [DirectResolve, hf]

/-! ## `strconv.Atoi` -/

theorem parseDigits_eq_some {ds : List Char} {acc n : Nat} :
    parseDigits ds acc = some n ↔
      (∀ c ∈ ds, c.isDigit = true) ∧
        n = ds.foldl (fun acc c => acc * 10 + (c.toNat - 48)) acc := by
  induction ds generalizing acc with
  | nil =>
    simp only [parseDigits, List.foldl_nil]
    constructor
    · intro h
      exact ⟨by simp, (Option.some.inj h).symm⟩
    · rintro ⟨_, rfl⟩
      rfl
  | cons c cs ih =>
    by_cases hc : c.isDigit = true
    · simp only [parseDigits, hc, if_true, ih, List.mem_cons, forall_eq_or_imp, true_and,
        List.foldl_cons]
    · simp only [parseDigits, hc, List.mem_cons, forall_eq_or_imp, false_and, iff_false]
      simp

theorem isDigit_ne_sign {c : Char} (hc : c.isDigit = true) : c ≠ '-' ∧ c ≠ '+' ∧ c ≠ '.' := by
  refine ⟨?_, ?_, ?_⟩ <;> rintro rfl <;> exact absurd hc (by decide)

theorem Atoi_minus (ds : List Char) :
    Atoi ⟨'-' :: ds⟩ = match ds with
      | [] => none
      | d :: ds =>
        match parseDigits (d :: ds) 0 with
        | none => none
        | some n => if -(2 : Int) ^ 63 ≤ -(n : Int) then some (-(n : Int)) else none := by
  unfold Atoi
  simp only [true_or, if_true]
  cases ds with
  | nil => rfl
  | cons d ds =>
    simp only
    cases parseDigits (d :: ds) 0 with
    | none => rfl
    | some n =>
      simp only
      have h2 : -(n : Int) < (2 : Int) ^ 63 := by
        have : (0 : Int) ≤ n := Int.ofNat_nonneg n
        have : (0 : Int) < (2 : Int) ^ 63 := by norm_num
        omega
      simp only [h2, and_true]

theorem Atoi_plus (ds : List Char) :
    Atoi ⟨'+' :: ds⟩ = match ds with
      | [] => none
      | d :: ds =>
        match parseDigits (d :: ds) 0 with
        | none => none
        | some n => if (n : Int) < (2 : Int) ^ 63 then some (n : Int) else none := by
  unfold Atoi
  simp only [or_true, if_true]
  cases ds with
  | nil => rfl
  | cons d ds =>
    simp only
    cases parseDigits (d :: ds) 0 with
    | none => rfl
    | some n =>
      simp only [show ¬ ('+' = '-') by decide, if_false]
      have h2 : -(2 : Int) ^ 63 ≤ (n : Int) := by
        have : (0 : Int) ≤ n := Int.ofNat_nonneg n
        have : (0 : Int) < (2 : Int) ^ 63 := by norm_num
        omega
      simp only [h2, true_and]

theorem Atoi_unsigned {c : Char} (cs : List Char) (hm : c ≠ '-') (hp : c ≠ '+') :
    Atoi ⟨c :: cs⟩ = match parseDigits (c :: cs) 0 with
      | none => none
      | some n => if (n : Int) < (2 : Int) ^ 63 then some (n : Int) else none := by
  unfold Atoi
  simp only [hm, hp, or_self, if_false]
  cases parseDigits (c :: cs) 0 with
  | none => rfl
  | some n =>
    simp only
    have h2 : -(2 : Int) ^ 63 ≤ (n : Int) := by
      have : (0 : Int) ≤ n := Int.ofNat_nonneg n
      have : (0 : Int) < (2 : Int) ^ 63 := by norm_num
      omega
    simp only [h2, true_and]

theorem parseDigits_zero_eq_some {ds : List Char} {n : Nat} :
    parseDigits ds 0 = some n ↔ (∀ c ∈ ds, c.isDigit = true) ∧ n = decimalValue ds :=
  parseDigits_eq_some

theorem IsIntNumeral_minus (ds : List Char) (i : Int) :
    IsIntNumeral ⟨'-' :: ds⟩ i ↔
      ds ≠ [] ∧ (∀ c ∈ ds, c.isDigit = true) ∧ i = -(decimalValue ds : Int) ∧
        -(2 : Int) ^ 63 ≤ i := by
  unfold IsIntNumeral
  constructor
  · rintro ⟨digits, hne, hd, (⟨h1 | h1, _⟩ | ⟨h1, h2, h3⟩)⟩
    · exact absurd (hd '-' (by rw [← h1]; simp)) (by decide)
    · simp at h1
    · simp only [List.cons.injEq, true_and] at h1
      subst h1
      exact ⟨hne, hd, h2, h3⟩
  · rintro ⟨hne, hd, h2, h3⟩
    exact ⟨ds, hne, hd, Or.inr ⟨rfl, h2, h3⟩⟩

theorem IsIntNumeral_plus (ds : List Char) (i : Int) :
    IsIntNumeral ⟨'+' :: ds⟩ i ↔
      ds ≠ [] ∧ (∀ c ∈ ds, c.isDigit = true) ∧ i = (decimalValue ds : Int) ∧
        i < (2 : Int) ^ 63 := by
  unfold IsIntNumeral
  constructor
  · rintro ⟨digits, hne, hd, (⟨h1 | h1, h2, h3⟩ | ⟨h1, _⟩)⟩
    · exact absurd (hd '+' (by rw [← h1]; simp)) (by decide)
    · simp only [List.cons.injEq, true_and] at h1
      subst h1
      exact ⟨hne, hd, h2, h3⟩
    · simp at h1
  · rintro ⟨hne, hd, h2, h3⟩
    exact ⟨ds, hne, hd, Or.inl ⟨Or.inr rfl, h2, h3⟩⟩

theorem IsIntNumeral_unsigned {c : Char} (cs : List Char) (i : Int) (hm : c ≠ '-')
    (hp : c ≠ '+') :
    IsIntNumeral ⟨c :: cs⟩ i ↔
      (∀ x ∈ c :: cs, x.isDigit = true) ∧ i = (decimalValue (c :: cs) : Int) ∧
        i < (2 : Int) ^ 63 := by
  unfold IsIntNumeral
  constructor
  · rintro ⟨digits, hne, hd, (⟨h1 | h1, h2, h3⟩ | ⟨h1, _⟩)⟩
    · simp only at h1
      subst h1
      exact ⟨hd, h2, h3⟩
    · simp only [List.cons.injEq] at h1
      exact absurd h1.1 hp
    · simp only [List.cons.injEq] at h1
      exact absurd h1.1 hm
  · rintro ⟨hd, h2, h3⟩
    exact ⟨c :: cs, by simp, hd, Or.inl ⟨Or.inl rfl, h2, h3⟩⟩

/-- What `Atoi` accepts, and the number it then returns. -/
theorem Atoi_eq_some_iff (s : String) (i : Int) : Atoi s = some i ↔ IsIntNumeral s i := by
  obtain ⟨cs⟩ := s
  cases cs with
  | nil =>
    have : Atoi ⟨[]⟩ = none := rfl
    rw [this]
    simp only [false_iff, reduceCtorEq]
    rintro ⟨digits, hne, _, (⟨h1 | h1, _⟩ | ⟨h1, _⟩)⟩
    · exact hne h1.symm
    · simp at h1
    · simp at h1
  | cons c cs =>
    by_cases hm : c = '-'
    · subst hm
      rw [Atoi_minus, IsIntNumeral_minus]
      cases cs with
      | nil => simp only [ne_eq, not_true_eq_false, false_and]; simp
      | cons d ds =>
        cases hp : parseDigits (d :: ds) 0 with
        | none =>
          simp only [hp, false_iff, reduceCtorEq]
          rintro ⟨_, hd, _⟩
          have := parseDigits_zero_eq_some.mpr ⟨hd, rfl⟩
          rw [hp] at this; cases this
        | some n =>
          obtain ⟨hd, hn⟩ := parseDigits_zero_eq_some.mp hp
          simp only [hp]
          constructor
          · intro h
            split at h
            · rename_i hr
              simp only [Option.some.injEq] at h
              exact ⟨by simp, hd, by rw [← h, hn], by rw [← h]; exact hr⟩
            · cases h
          · rintro ⟨_, _, h2, h3⟩
            rw [← hn] at h2
            rw [h2] at h3
            rw [if_pos h3, h2]
    · by_cases hpl : c = '+'
      · subst hpl
        rw [Atoi_plus, IsIntNumeral_plus]
        cases cs with
        | nil => simp only [ne_eq, not_true_eq_false, false_and]; simp
        | cons d ds =>
          cases hp : parseDigits (d :: ds) 0 with
          | none =>
            simp only [hp, false_iff, reduceCtorEq]
            rintro ⟨_, hd, _⟩
            have := parseDigits_zero_eq_some.mpr ⟨hd, rfl⟩
            rw [hp] at this; cases this
          | some n =>
            obtain ⟨hd, hn⟩ := parseDigits_zero_eq_some.mp hp
            simp only [hp]
            constructor
            · intro h
              split at h
              · rename_i hr
                simp only [Option.some.injEq] at h
                exact ⟨by simp, hd, by rw [← h, hn], by rw [← h]; exact hr⟩
              · cases h
            · rintro ⟨_, _, h2, h3⟩
              rw [← hn] at h2
              rw [h2] at h3
              rw [if_pos h3, h2]
      · rw [Atoi_unsigned cs hm hpl, IsIntNumeral_unsigned cs i hm hpl]
        cases hp : parseDigits (c :: cs) 0 with
        | none =>
          simp only [hp, false_iff, reduceCtorEq]
          rintro ⟨hd, _⟩
          have := parseDigits_zero_eq_some.mpr ⟨hd, rfl⟩
          rw [hp] at this; cases this
        | some n =>
          obtain ⟨hd, hn⟩ := parseDigits_zero_eq_some.mp hp
          simp only [hp]
          constructor
          · intro h
            split at h
            · rename_i hr
              simp only [Option.some.injEq] at h
              exact ⟨hd, by rw [← h, hn], by rw [← h]; exact hr⟩
            · cases h
          · rintro ⟨_, h2, h3⟩
            rw [← hn] at h2
            rw [h2] at h3
            rw [if_pos h3, h2]

/-- A token `Atoi` accepts has no dot in it. -/
theorem not_mem_dot_of_Atoi {s : String} {i : Int} (hs : Atoi s = some i) : '.' ∉ s.data := by
  obtain ⟨digits, _, hd, (⟨h1 | h1, _⟩ | ⟨h1, _⟩)⟩ := (Atoi_eq_some_iff s i).mp hs
  · rw [h1]; intro hm; exact absurd (hd _ hm) (by decide)
  · rw [h1]; intro hm
    rcases List.mem_cons.mp hm with e | e
    · exact absurd e (by decide)
    · exact absurd (hd _ e) (by decide)
  · rw [h1]; intro hm
    rcases List.mem_cons.mp hm with e | e
    · exact absurd e (by decide)
    · exact absurd (hd _ e) (by decide)

/-! ## Sequences -/

/-- The shape dispatch on a slice or array. -/
theorem dispatch_sequence {u : Value} {elem : GoType} {xs : List Slot} {ro : Bool}
    (hseq : u = .of (.val (.slice elem xs)) ro ∨ u = .of (.val (.array elem xs)) ro)
    (tok : String) :
    dispatch u tok =
      match Atoi tok with
      | none => .error "could not parse index of array"
      | some i =>
        if i ≥ (xs.length : Int) ∨ i < 0 then .error "index is out of range"
        else .ok ((xs[i.toNat]?).elim .zero (fun s => .of s ro)) := by
  rcases hseq with rfl | rfl
  · simp only [dispatch, Value.Kind, GoValue.Kind, true_or, if_true, Value.Len, Value.Index]
    cases Atoi tok with
    | none => rfl
    | some i =>
      by_cases hc : i ≥ (xs.length : Int) ∨ i < 0 <;> simp [hc]
  · simp only [dispatch, Value.Kind, GoValue.Kind, or_true, if_true, Value.Len, Value.Index]
    cases Atoi tok with
    | none => rfl
    | some i =>
      by_cases hc : i ≥ (xs.length : Int) ∨ i < 0 <;> simp [hc]

theorem returnInterface_of_false (s : Slot) :
    returnInterface (.of s false) = .ret (s.toInterface, none) := by
  simp [returnInterface, Value.Interface]

/-- The index step at a slice or array `xs` and a token that `Atoi` reads as
the integer `i`.  When `0 ≤ i < len(xs)` the step selects exactly the element
at position `i`, from which traversal continues when tokens follow; as the last
token it gives what `Interface()` makes of the element, which is the element
itself when the sequence was not reached through an unexported field.  When
`i < 0` or `i ≥ len(xs)` the whole resolution fails with
"index is out of range", whatever tokens follow. -/
theorem sequence_index_step (h : Heap) (value u : Value) (elem : GoType) (xs : List Slot)
    (ro : Bool) (tok : String) (i : Int)
    (hunwrap : unwrap h value = .ret u)
    (hseq : u = .of (.val (.slice elem xs)) ro ∨ u = .of (.val (.array elem xs)) ro)
    (hi : Atoi tok = some i) :
    (0 ≤ i ∧ i < (xs.length : Int) →
      ∃ x, xs[i.toNat]? = some x ∧
        dispatch u tok = .ok (.of x ro) ∧
        resolve h value tok = returnInterface (.of x ro) ∧
        (ro = false → resolve h value tok = .ret (x.toInterface, none)) ∧
        ∀ rest, resolve h value (tok ++ "." ++ rest) = resolve h (.of x ro) rest) ∧
    (i < 0 ∨ (xs.length : Int) ≤ i →
      resolve h value tok = .ret (none, some "index is out of range") ∧
      ∀ rest, resolve h value (tok ++ "." ++ rest) =
        .ret (none, some "index is out of range")) := by
  have hdot := not_mem_dot_of_Atoi hi
  have hd := dispatch_sequence hseq tok
  rw [hi] at hd
  simp only at hd
  constructor
  · rintro ⟨h0, h1⟩
    have hlt : i.toNat < xs.length := by omega
    obtain ⟨x, hx⟩ : ∃ x, xs[i.toNat]? = some x := ⟨_, List.getElem?_eq_getElem hlt⟩
    have hd2 : dispatch u tok = .ok (.of x ro) := by
      rw [hd, if_neg (by omega), hx]; rfl
    have hlast : resolve h value tok = returnInterface (.of x ro) := by
      rw [resolve_last h value hdot, hunwrap]
      simp only [hd2, Value.IsValid, Bool.not_true, Bool.false_eq_true, if_false]
    refine ⟨x, hx, hd2, hlast, ?_, ?_⟩
    · intro hro
      rw [hlast, hro, returnInterface_of_false]
    · intro rest
      rw [resolve_more h value rest hdot, hunwrap]
      simp only [hd2, Value.IsValid, Bool.not_true, Bool.false_eq_true, if_false]
  · intro hout
    have hd2 : dispatch u tok = .error "index is out of range" := by
      rw [hd, if_pos (by omega)]
    constructor
    · rw [resolve_last h value hdot, hunwrap]
      simp only [hd2]
    · intro rest
      rw [resolve_more h value rest hdot, hunwrap]
      simp only [hd2]

/-- The index step at the test values: in `[]int{1, 2, 3}` the token "1"
selects the element 2, "2.x" continues from the element 3, and "100" is out of
range. -/
theorem sequence_index_step_ints123 :
    resolve flatHeap (ValueOf (some ints123)) "1" = .ret (some (.int 2), none) ∧
    resolve flatHeap (ValueOf (some ints123)) "2.x" =
      resolve flatHeap (.of (.val (.int 3)) false) "x" ∧
    resolve flatHeap (ValueOf (some ints123)) "100" =
      .ret (none, some "index is out of range") ∧
    resolve flatHeap (ValueOf (some ints123)) "100.x.y" =
      .ret (none, some "index is out of range") := by
  have hu : unwrap flatHeap (ValueOf (some ints123)) = .ret (ValueOf (some ints123)) := rfl
  have a := (sequence_index_step flatHeap (ValueOf (some ints123)) _ (.named "int")
    [.val (.int 1), .val (.int 2), .val (.int 3)] false "1" 1 hu (Or.inl rfl) rfl).1
    ⟨by decide, by decide⟩
  have b := (sequence_index_step flatHeap (ValueOf (some ints123)) _ (.named "int")
    [.val (.int 1), .val (.int 2), .val (.int 3)] false "2" 2 hu (Or.inl rfl) rfl).1
    ⟨by decide, by decide⟩
  have c := (sequence_index_step flatHeap (ValueOf (some ints123)) _ (.named "int")
    [.val (.int 1), .val (.int 2), .val (.int 3)] false "100" 100 hu (Or.inl rfl) rfl).2
    (Or.inr (by decide))
  obtain ⟨x, hx, _, _, hx4, _⟩ := a
  obtain ⟨y, hy, _, _, _, hy5⟩ := b
  simp at hx hy
  cases hx
  cases hy
  exact ⟨hx4 rfl, hy5 "x", c.1, c.2 "x.y"⟩

/-- C4, the code at the failing input: in the registry
`{"user": struct{ items []int }{[]int{1, 2, 3}}}` the index 1 lies
within the slice `items`, and the step selects the element 2
(`dispatch ... = .ok ...`), yet "user.items[1]" does not return it: the call
panics in `Interface()`, from the registry as from `DirectResolve`; an index
out of range on the same slice is reported as the error it is. -/
theorem C4_private_sequence_panics :
    dispatch (.of (.val (.slice (.named "int") [.val (.int 1), .val (.int 2), .val (.int 3)]))
      true) "1" = .ok (.of (.val (.int 2)) true) ∧
    (NewResolver (some [("user", some privateItems)])).Resolve flatHeap "user.items[1]" =
      .panics
        "reflect.Value.Interface: cannot return value obtained from unexported field or method" ∧
    DirectResolve flatHeap (some privateItems) "user.items[1]" =
      .panics
        "reflect.Value.Interface: cannot return value obtained from unexported field or method" ∧
    (NewResolver (some [("user", some privateItems)])).Resolve flatHeap "user.items[3]" =
      .ret (none, some "index is out of range") :=
  ⟨rfl, rfl, rfl, rfl⟩

theorem exists_IsIntNumeral_iff (s : String) :
    (∃ i, IsIntNumeral s i) ↔ Atoi s ≠ none := by
  constructor
  · rintro ⟨i, hi⟩
    rw [(Atoi_eq_some_iff s i).mpr hi]
    simp
  · intro hne
    cases ha : Atoi s with
    | none => exact absurd ha hne
    | some i => exact ⟨i, (Atoi_eq_some_iff s i).mp ha⟩

/-- C5, as the specification words it, fails: "-1" is not the decimal
representation of a non-negative integer, yet on `[]int{1, 2, 3}` it is not an
invalid index but an index out of range; and "9223372036854775808" is such a
representation, yet it is reported as an invalid index. -/
theorem C5_counterexample :
    isDecimalNat "-1" = false ∧
    resolve flatHeap (ValueOf (some ints123)) "-1" =
      .ret (none, some "index is out of range") ∧
    isDecimalNat "9223372036854775808" = true ∧
    resolve flatHeap (ValueOf (some ints123)) "9223372036854775808" =
      .ret (none, some "could not parse index of array") :=
  ⟨rfl, rfl, rfl, rfl⟩

/-- C5, amended: at a step whose current value is a slice or array, the step
fails with "could not parse index of array" exactly when the token is not an
integer numeral of the range of `int` (an optional sign, then one or more
decimal digits); the whole resolution then fails with that error, whatever
follows.  A token that is such a numeral for `i` selects the element at `i` when
`0 ≤ i < len`, and otherwise fails with the distinct error
"index is out of range". -/
theorem C5_invalid_index (h : Heap) (value u : Value) (elem : GoType) (xs : List Slot)
    (ro : Bool) (tok : String)
    (hunwrap : unwrap h value = .ret u)
    (hseq : u = .of (.val (.slice elem xs)) ro ∨ u = .of (.val (.array elem xs)) ro)
    (hdot : '.' ∉ tok.data) :
    (dispatch u tok = .error "could not parse index of array" ↔
      ¬ ∃ i, IsIntNumeral tok i) ∧
    (resolve h value tok = .ret (none, some "could not parse index of array") ↔
      ¬ ∃ i, IsIntNumeral tok i) ∧
    ((¬ ∃ i, IsIntNumeral tok i) → ∀ rest, resolve h value (tok ++ "." ++ rest) =
      .ret (none, some "could not parse index of array")) ∧
    (∀ i, IsIntNumeral tok i →
      (0 ≤ i ∧ i < (xs.length : Int) →
        ∃ x, xs[i.toNat]? = some x ∧ dispatch u tok = .ok (.of x ro)) ∧
      (i < 0 ∨ (xs.length : Int) ≤ i →
        dispatch u tok = .error "index is out of range" ∧
        resolve h value tok = .ret (none, some "index is out of range"))) := by
  have hd := dispatch_sequence hseq tok
  have hstep : dispatch u tok = .error "could not parse index of array" ↔
      ¬ ∃ i, IsIntNumeral tok i := by
    rw [exists_IsIntNumeral_iff, not_not, hd]
    cases Atoi tok with
    | none => simp
    | some i =>
      by_cases hc : i ≥ (xs.length : Int) ∨ i < 0
      · simp only [hc, if_true]
        simp only [Step.error.injEq, reduceCtorEq, iff_false]
        decide
      · simp [hc]
  have hnum : ∀ i, IsIntNumeral tok i →
      (0 ≤ i ∧ i < (xs.length : Int) →
        ∃ x, xs[i.toNat]? = some x ∧ dispatch u tok = .ok (.of x ro)) ∧
      (i < 0 ∨ (xs.length : Int) ≤ i →
        dispatch u tok = .error "index is out of range" ∧
        resolve h value tok = .ret (none, some "index is out of range")) := by
    intro i hi
    have ha := (Atoi_eq_some_iff tok i).mpr hi
    rw [ha] at hd
    simp only at hd
    constructor
    · rintro ⟨h0, h1⟩
      have hlt : i.toNat < xs.length := by omega
      refine ⟨_, List.getElem?_eq_getElem hlt, ?_⟩
      rw [hd, if_neg (by omega), List.getElem?_eq_getElem hlt]; rfl
    · intro hout
      have hd2 : dispatch u tok = .error "index is out of range" := by
        rw [hd, if_pos (by omega)]
      refine ⟨hd2, ?_⟩
      rw [resolve_last h value hdot, hunwrap]
      simp only [hd2]
  refine ⟨hstep, ?_, ?_, hnum⟩
  · constructor
    · intro hres
      intro hex
      obtain ⟨i, hi⟩ := hex
      have ha := (Atoi_eq_some_iff tok i).mpr hi
      rw [ha] at hd
      simp only at hd
      rw [resolve_last h value hdot, hunwrap] at hres
      by_cases hc : i ≥ (xs.length : Int) ∨ i < 0
      · rw [if_pos hc] at hd
        simp only [hd, Go.ret.injEq, Prod.mk.injEq, Option.some.injEq, true_and] at hres
        exact absurd hres (by decide)
      · rw [if_neg hc] at hd
        have hlt : i.toNat < xs.length := by omega
        rw [List.getElem?_eq_getElem hlt] at hd
        simp only [hd, Option.elim, Value.IsValid, Bool.not_true, Bool.false_eq_true,
          if_false, returnInterface] at hres
        cases hI : (Value.of xs[i.toNat] ro).Interface with
        | panics m => rw [hI] at hres; cases hres
        | ret v => rw [hI] at hres; simp at hres
    · intro hno
      rw [resolve_last h value hdot, hunwrap]
      simp only [hstep.mpr hno]
  · intro hno rest
    rw [resolve_more h value rest hdot, hunwrap]
    simp only [hstep.mpr hno]

/-- C5 (amended) at the test values: on `[]int{1, 2, 3}` the token "asd" is an
invalid index, also with tokens after it, and "-1" is a numeral out of range. -/
theorem C5_invalid_index_witness :
    resolve flatHeap (ValueOf (some ints123)) "asd" =
      .ret (none, some "could not parse index of array") ∧
    resolve flatHeap (ValueOf (some ints123)) "asd.Name" =
      .ret (none, some "could not parse index of array") ∧
    resolve flatHeap (ValueOf (some ints123)) "-1" =
      .ret (none, some "index is out of range") := by
  have hu : unwrap flatHeap (ValueOf (some ints123)) = .ret (ValueOf (some ints123)) := rfl
  have hno : ¬ ∃ i, IsIntNumeral "asd" i := by
    rw [exists_IsIntNumeral_iff, not_not]; rfl
  have hneg : IsIntNumeral "-1" (-1) := (Atoi_eq_some_iff "-1" (-1)).mp rfl
  have a := C5_invalid_index flatHeap (ValueOf (some ints123)) _ (.named "int")
    [.val (.int 1), .val (.int 2), .val (.int 3)] false "asd" hu (Or.inl rfl) (by decide)
  have b := C5_invalid_index flatHeap (ValueOf (some ints123)) _ (.named "int")
    [.val (.int 1), .val (.int 2), .val (.int 3)] false "-1" hu (Or.inl rfl) (by decide)
  exact ⟨a.2.1.mpr hno, a.2.2.1 hno "Name", ((b.2.2.2 (-1) hneg).2 (Or.inl (by decide))).2⟩

/-! ## Records -/

theorem lookupField_eq_none {name : String} {fields : List (String × Bool × Slot)} :
    lookupField name fields = none ↔ ∀ f ∈ fields, f.1 ≠ name := by
  induction fields with
  | nil => simp [lookupField]
  | cons f fs ih =>
    obtain ⟨n, e, s⟩ := f
    by_cases hn : n = name
    · simp [lookupField, hn]
    · simp [lookupField, hn, ih]

theorem mem_of_lookupField {name : String} {fields : List (String × Bool × Slot)}
    {e : Bool} {x : Slot} (hl : lookupField name fields = some (e, x)) :
    (name, e, x) ∈ fields := by
  induction fields with
  | nil => simp [lookupField] at hl
  | cons f fs ih =>
    obtain ⟨n, e0, s⟩ := f
    by_cases hn : n = name
    · simp only [lookupField, hn, if_true, Option.some.injEq, Prod.mk.injEq] at hl
      rw [hn, hl.1, hl.2]
      exact List.mem_cons_self _ _
    · simp only [lookupField, hn, if_false] at hl
      exact List.mem_cons_of_mem _ (ih hl)

/-- The shape dispatch on a struct. -/
theorem dispatch_struct (ty : GoType) (fields : List (String × Bool × Slot))
    (nilEmbedded : List String) (ro : Bool) (tok : String) :
    dispatch (.of (.val (.struct ty fields nilEmbedded)) ro) tok =
      match lookupField tok fields with
      | some (exported, x) => .ok (.of x (ro || !exported))
      | none =>
        if tok ∈ nilEmbedded then
          .panics "reflect: indirection through nil pointer to embedded struct"
        else .ok .zero := by
  rw [dispatch_eq]
  simp only [Value.Kind, GoValue.Kind, reduceCtorEq, or_self, if_false, if_true,
    Value.FieldByName]
  cases lookupField tok fields with
  | some p => rfl
  | none =>
    by_cases hm : tok ∈ nilEmbedded
    · simp only [hm, if_true]
    · simp only [hm, if_false]

/-- The field step at a struct and a token `t`.  When `FieldByName` finds a
field under the name `t`, the step selects it, and traversal continues from it
when tokens follow; as the last token it gives what `Interface()` makes of the
field, which is the field's value when it is exported and the struct was not
reached through an unexported field.  When the name lies behind a nil embedded
pointer, resolution panics.  When the struct has no field of that name at all,
resolution fails with the text made of the struct's type,
" does not have field ", the token, and ": nothing left to resolve" when `t` is
the last token (": <rest> left to resolve" when `rest` follows). -/
theorem struct_field_step (h : Heap) (value : Value) (ty : GoType)
    (fields : List (String × Bool × Slot)) (nilEmbedded : List String) (ro : Bool)
    (tok : String)
    (hunwrap : unwrap h value = .ret (.of (.val (.struct ty fields nilEmbedded)) ro))
    (hdot : '.' ∉ tok.data) :
    ((∃ f ∈ fields, f.1 = tok) →
      ∃ exported x, (tok, exported, x) ∈ fields ∧
        dispatch (.of (.val (.struct ty fields nilEmbedded)) ro) tok =
          .ok (.of x (ro || !exported)) ∧
        resolve h value tok = returnInterface (.of x (ro || !exported)) ∧
        (ro = false → exported = true → resolve h value tok = .ret (x.toInterface, none)) ∧
        ∀ rest, resolve h value (tok ++ "." ++ rest) =
          resolve h (.of x (ro || !exported)) rest) ∧
    ((∀ f ∈ fields, f.1 ≠ tok) → tok ∈ nilEmbedded →
      resolve h value tok =
        .panics "reflect: indirection through nil pointer to embedded struct" ∧
      ∀ rest, resolve h value (tok ++ "." ++ rest) =
        .panics "reflect: indirection through nil pointer to embedded struct") ∧
    ((∀ f ∈ fields, f.1 ≠ tok) → tok ∉ nilEmbedded →
      resolve h value tok = .ret (none, some (ty.String ++ " does not have field " ++ tok
        ++ ": nothing left to resolve")) ∧
      ∀ rest, resolve h value (tok ++ "." ++ rest) =
        .ret (none, some (ty.String ++ " does not have field " ++ tok ++ ": " ++ rest
          ++ " left to resolve"))) := by
  have hd := dispatch_struct ty fields nilEmbedded ro tok
  refine ⟨?_, ?_, ?_⟩
  · intro hex
    cases hl : lookupField tok fields with
    | none =>
      obtain ⟨f, hf, hft⟩ := hex
      exact absurd hft (lookupField_eq_none.mp hl f hf)
    | some p =>
      obtain ⟨exported, x⟩ := p
      rw [hl] at hd
      simp only at hd
      have hlast : resolve h value tok = returnInterface (.of x (ro || !exported)) := by
        rw [resolve_last h value hdot, hunwrap]
        simp only [hd, Value.IsValid, Bool.not_true, Bool.false_eq_true, if_false]
      refine ⟨exported, x, mem_of_lookupField hl, hd, hlast, ?_, ?_⟩
      · intro hro hexp
        rw [hlast, hro, hexp]
        exact returnInterface_of_false x
      · intro rest
        rw [resolve_more h value rest hdot, hunwrap]
        simp only [hd, Value.IsValid, Bool.not_true, Bool.false_eq_true, if_false]
  · intro hno hmem
    rw [lookupField_eq_none.mpr hno] at hd
    simp only [hmem, if_true] at hd
    constructor
    · rw [resolve_last h value hdot, hunwrap]
      simp only [hd]
    · intro rest
      rw [resolve_more h value rest hdot, hunwrap]
      simp only [hd]
  · intro hno hmem
    rw [lookupField_eq_none.mpr hno] at hd
    simp only [hmem, if_false] at hd
    constructor
    · rw [resolve_last h value hdot, hunwrap]
      simp only [hd, Value.IsValid, Bool.not_false, if_true, Value.Type, GoValue.Type]
    · intro rest
      rw [resolve_more h value rest hdot, hunwrap]
      simp only [hd, Value.IsValid, Bool.not_false, if_true, Value.Type, GoValue.Type]

/-- The field step at the test value `struct \x7b Name string \x7d`: "Name" selects
the field, "firstname" and the differently cased "name" are not found. -/
theorem struct_field_step_nameStruct :
    resolve flatHeap (ValueOf (some nameStruct)) "Name" =
      .ret (some (.str "somename"), none) ∧
    resolve flatHeap (ValueOf (some nameStruct)) "firstname" =
      .ret (none, some
        "struct \x7b Name string \x7d does not have field firstname: nothing left to resolve") ∧
    resolve flatHeap (ValueOf (some nameStruct)) "name" =
      .ret (none, some
        "struct \x7b Name string \x7d does not have field name: nothing left to resolve") ∧
    resolve flatHeap (ValueOf (some nameStruct)) "name.first" =
      .ret (none, some
        "struct \x7b Name string \x7d does not have field name: first left to resolve") :=
  ⟨rfl, rfl, rfl, rfl⟩

/-- C6, the code at the failing input: for `Outer{}` of the types
`type Inner struct{ Name string }` and `type Outer struct{ *Inner }`, whose
embedded pointer is nil, the token "Name" neither selects a field nor fails
with the not-found error that "user.missing" gets on the same value: the call
panics in `FieldByName`, from the registry as from `DirectResolve`, with "Name"
as the last token or not. -/
theorem C6_nil_embedded_panics :
    (NewResolver (some [("user", some outerNil)])).Resolve flatHeap "user.Name" =
      .panics "reflect: indirection through nil pointer to embedded struct" ∧
    DirectResolve flatHeap (some outerNil) "user.Name" =
      .panics "reflect: indirection through nil pointer to embedded struct" ∧
    (NewResolver (some [("user", some outerNil)])).Resolve flatHeap "user.Name.x" =
      .panics "reflect: indirection through nil pointer to embedded struct" ∧
    (NewResolver (some [("user", some outerNil)])).Resolve flatHeap "user.missing" =
      .ret (none, some "resolver.Outer does not have field missing: nothing left to resolve") :=
  ⟨rfl, rfl, rfl, rfl⟩

/-! ## Mappings -/

/-- The shape dispatch on a map. -/
theorem dispatch_map (e : GoType) (es : List (String × Slot)) (ro : Bool) (tok : String) :
    dispatch (.of (.val (.map e es)) ro) tok =
      .ok (match lookupKey tok es with
        | none => .zero
        | some x => .of x ro) := by
  rw [dispatch_eq]
  simp only [Value.Kind, GoValue.Kind, reduceCtorEq, or_self, if_false, if_true,
    Value.MapIndex]
  cases lookupKey tok es with
  | none => rfl
  | some x => rfl

/-- A location that holds a mapping unwraps to that mapping. -/
theorem unwrap_asMap (h : Heap) {x : Slot} {e : GoType} {es : List (String × Slot)}
    (hx : x.asMap = some (e, es)) :
    unwrap h (.of x false) = .ret (.of (.val (.map e es)) false) := by
  cases x with
  | val v =>
    cases v <;> simp [Slot.asMap] at hx
    obtain ⟨rfl, rfl⟩ := hx
    simp [unwrap, Value.Kind, GoValue.Kind]
  | iface dyn =>
    cases dyn with
    | none => simp [Slot.asMap] at hx
    | some v =>
      cases v <;> simp [Slot.asMap] at hx
      obtain ⟨rfl, rfl⟩ := hx
      simp [unwrap, Value.Kind, GoValue.Kind, Value.Interface, Slot.toInterface, ValueOf]

/-- C7: for a nesting of string-keyed mappings and a path of keys `k1.k2...kn`:
when every key is present in the mapping reached so far, resolution returns
the value stored under `kn` in the innermost mapping; when `ki` is the first
absent key, resolution returns nothing and fails with the not-found text (the
one of a missing struct field) naming the type of the mapping and `ki`. -/
theorem C7_nested_maps (h : Heap) (keys : List String)
    (hkeys : ∀ k ∈ keys, '.' ∉ k.data) :
    ∀ (value : Value) (e : GoType) (es : List (String × Slot)),
      unwrap h value = .ret (.of (.val (.map e es)) false) →
      (∀ x, followKeys e es keys = some (.ok x) →
        resolve h value (Join keys ".") = .ret (x.toInterface, none)) ∧
      (∀ ty k rest, followKeys e es keys = some (.error (ty, k, rest)) →
        resolve h value (Join keys ".") =
          .ret (none, some (ty.String ++ " does not have field " ++ k ++ ": " ++
            (if rest = [] then "nothing left to resolve"
             else Join rest "." ++ " left to resolve")))) := by
  induction keys with
  | nil =>
    intro value e es _
    simp [followKeys]
  | cons k ks ih =>
    intro value e es hunwrap
    have hk : '.' ∉ k.data := hkeys k (List.mem_cons_self _ _)
    have hd := dispatch_map e es false k
    cases hl : lookupKey k es with
    | none =>
      rw [hl] at hd
      simp only at hd
      constructor
      · intro x hx
        simp [followKeys, hl] at hx
      · intro ty k0 rest hx
        simp only [followKeys, hl, Option.some.injEq, Except.error.injEq, Prod.mk.injEq] at hx
        obtain ⟨rfl, rfl, rfl⟩ := hx
        cases ks with
        | nil =>
          show resolve h value k = _
          rw [resolve_last h value hk, hunwrap]
          simp only [hd, Value.IsValid, Bool.not_false, if_true, Value.Type, GoValue.Type]
          simp [String.append_assoc]
        | cons k1 ks1 =>
          show resolve h value (k ++ "." ++ Join (k1 :: ks1) ".") = _
          rw [resolve_more h value _ hk, hunwrap]
          simp only [hd, Value.IsValid, Bool.not_false, if_true, Value.Type, GoValue.Type]
          simp [String.append_assoc]
    | some x =>
      rw [hl] at hd
      simp only at hd
      cases ks with
      | nil =>
        constructor
        · intro x0 hx
          simp only [followKeys, hl, Option.some.injEq, Except.ok.injEq] at hx
          subst hx
          show resolve h value k = _
          rw [resolve_last h value hk, hunwrap]
          simp only [hd, Value.IsValid, Bool.not_true, Bool.false_eq_true, if_false]
          exact returnInterface_of_false x
        · intro ty k0 rest hx
          simp [followKeys, hl] at hx
      | cons k1 ks1 =>
        have hstep : resolve h value (Join (k :: k1 :: ks1) ".") =
            resolve h (.of x false) (Join (k1 :: ks1) ".") := by
          show resolve h value (k ++ "." ++ Join (k1 :: ks1) ".") = _
          rw [resolve_more h value _ hk, hunwrap]
          simp only [hd, Value.IsValid, Bool.not_true, Bool.false_eq_true, if_false]
        cases hm : x.asMap with
        | none =>
          constructor
          · intro x0 hx
            simp [followKeys, hl, hm] at hx
          · intro ty k0 rest hx
            simp [followKeys, hl, hm] at hx
        | some p =>
          obtain ⟨e1, es1⟩ := p
          have ih1 := ih (fun k0 hk0 => hkeys k0 (List.mem_cons_of_mem _ hk0))
            (.of x false) e1 es1 (unwrap_asMap h hm)
          have hf : followKeys e es (k :: k1 :: ks1) = followKeys e1 es1 (k1 :: ks1) := by
            simp only [followKeys, hl, hm]
          rw [hstep, hf]
          exact ih1

/-- C7 at the test values: in the nested maps of the tests, "name.value"
returns "somename" and "nonexisting.value" is not found. -/
theorem C7_nested_maps_witness :
    resolve flatHeap (ValueOf (some nestedMap)) "name.value" =
      .ret (some (.str "somename"), none) ∧
    resolve flatHeap (ValueOf (some nestedMap)) "nonexisting.value" =
      .ret (none, some
        "map[string]interface \x7b\x7d does not have field nonexisting: value left to resolve") ∧
    resolve flatHeap (ValueOf (some nestedMap)) "name.bad" =
      .ret (none, some
        "map[string]interface \x7b\x7d does not have field bad: nothing left to resolve") := by
  have hu : unwrap flatHeap (ValueOf (some nestedMap)) =
      .ret (.of (.val (.map GoType.emptyInterface
        [("name", .iface (some (.map GoType.emptyInterface
          [("value", .iface (some (.str "somename")))])))])) false) := rfl
  have a := (C7_nested_maps flatHeap ["name", "value"] (by decide) _ _ _ hu).1 _ rfl
  have b := (C7_nested_maps flatHeap ["nonexisting", "value"] (by decide) _ _ _ hu).2 _ _ _ rfl
  have c := (C7_nested_maps flatHeap ["name", "bad"] (by decide) _ _ _ hu).2 _ _ _ rfl
  exact ⟨a, b, c⟩

/-! ## The not-found text -/

/-- The full split of the join of a non-empty tail of a full split is that tail. -/
theorem Split_Join_of_suffix :
    ∀ (pre : List String) (s : String) (ts : List String),
      Split s '.' = pre ++ ts → ts ≠ [] → Split (Join ts ".") '.' = ts := by
  intro pre
  induction pre with
  | nil =>
    intro s ts hs _
    have := Join_Split '.' s
    rw [show String.singleton '.' = "." from rfl] at this
    simp only [List.nil_append] at hs
    rw [← hs, this]
  | cons p pre ih =>
    intro s ts hs hts
    obtain ⟨_, hcase⟩ := Split_eq_cons (by simpa using hs : Split s '.' = p :: (pre ++ ts))
    rcases hcase with ⟨hnil, _⟩ | ⟨_, _, hsplit⟩
    · simp at hnil; exact absurd hnil.2 hts
    · exact ih _ ts hsplit hts

/-- One call of `resolve` whose lookup finds nothing, read on the full split. -/
theorem resolve_not_found (h : Heap) {value u : Value} {s t : String} {ts : List String}
    {ty : GoType} (hs : Split s '.' = t :: ts) (hunwrap : unwrap h value = .ret u)
    (hd : dispatch u t = .ok .zero) (hty : u.Type = .ret ty) :
    resolve h value s = .ret (none, some (ty.String ++ " does not have field " ++ t ++ ": " ++
      (if ts = [] then "nothing left to resolve" else Join ts "." ++ " left to resolve"))) := by
  obtain ⟨ht, hcase⟩ := Split_eq_cons hs
  rcases hcase with ⟨rfl, rfl⟩ | ⟨hne, hseq, _⟩
  · rw [resolve_last h value ht, hunwrap]
    simp only [hd, Value.IsValid, Bool.not_false, if_true, hty]
    simp [String.append_assoc]
  · rw [hseq, resolve_more h value _ ht, hunwrap]
    simp only [hd, Value.IsValid, Bool.not_false, if_true, hty]
    simp [String.append_assoc, hne]

theorem left_to_resolve_eq_iff (x j : String) :
    x ++ ": " ++ j ++ " left to resolve" = x ++ ": nothing left to resolve" ↔
      j = "nothing" := by
  rw [show (": nothing left to resolve" : String) = ": " ++ ("nothing" ++ " left to resolve")
    from rfl]
  constructor
  · intro heq
    have := congrArg String.data heq
    simp only [String.data_append, List.append_assoc, List.append_cancel_left_eq,
      List.append_cancel_right_eq] at this
    exact String.ext this
  · rintro rfl
    simp [String.append_assoc]

/-- C8, as the specification words it, fails: with the registry
`\x7b"user": "x"\x7d` the paths "user.t" and "user.t.nothing" fail at the token "t"
with the same text, although "t" is the last token of the first path only. -/
theorem C8_counterexample :
    tokens "user.t" = ["user", "t"] ∧
    tokens "user.t.nothing" = ["user", "t", "nothing"] ∧
    (NewResolver (some [("user", some (.str "x"))])).Resolve flatHeap "user.t" =
      .ret (none, some "string does not have field t: nothing left to resolve") ∧
    (NewResolver (some [("user", some (.str "x"))])).Resolve flatHeap "user.t.nothing" =
      .ret (none, some "string does not have field t: nothing left to resolve") :=
  ⟨rfl, rfl, rfl, rfl⟩

/-- C8, amended: when the tokens `pre` of the normalized path have been taken
and the lookup of the next token `t` finds nothing in a value of type `ty`, the
error text is "<ty> does not have field <t>: nothing left to resolve" when `t`
is the last token, and "<ty> does not have field <t>: X left to resolve"
otherwise, where `X` is the dot-join of the tokens that follow `t` in the full
split of the path; this is the former text exactly when `t` is the last token
or `X` is the word "nothing". -/
theorem C8_not_found_text (h : Heap) (value v u : Value) (s t : String)
    (pre ts : List String) (ty : GoType)
    (hs : Split s '.' = pre ++ t :: ts) (hwalk : walk h value pre = some v)
    (hunwrap : unwrap h v = .ret u) (hd : dispatch u t = .ok .zero)
    (hty : u.Type = .ret ty) :
    (ts = [] → resolve h value s = .ret (none, some (ty.String ++ " does not have field "
      ++ t ++ ": nothing left to resolve"))) ∧
    (ts ≠ [] → resolve h value s = .ret (none, some (ty.String ++ " does not have field "
      ++ t ++ ": " ++ Join ts "." ++ " left to resolve"))) ∧
    (resolve h value s = .ret (none, some (ty.String ++ " does not have field "
      ++ t ++ ": nothing left to resolve")) ↔ (ts = [] ∨ Join ts "." = "nothing")) := by
  have h1 : resolve h value s = resolve h v (Join (t :: ts) ".") :=
    resolve_walk h pre s value v (t :: ts) hs (by simp) hwalk
  have h2 : Split (Join (t :: ts) ".") '.' = t :: ts :=
    Split_Join_of_suffix pre s (t :: ts) hs (by simp)
  have h3 := resolve_not_found h h2 hunwrap hd hty
  rw [← h1] at h3
  refine ⟨?_, ?_, ?_⟩
  · intro hts
    rw [h3, if_pos hts]
    simp [String.append_assoc]
  · intro hts
    rw [h3, if_neg hts]
    simp [String.append_assoc]
  · by_cases hts : ts = []
    · simp only [hts, true_or, iff_true]
      rw [h3, if_pos hts]
      simp [String.append_assoc]
    · simp only [hts, false_or]
      rw [h3, if_neg hts]
      simp only [Go.ret.injEq, Prod.mk.injEq, true_and, Option.some.injEq]
      rw [← left_to_resolve_eq_iff (ty.String ++ " does not have field " ++ t)]
      simp [String.append_assoc]

/-- C8 (amended) at the test values: below the string "somevalue" the token
"username" is not found, with the remainder "somevalue2.x" reported. -/
theorem C8_not_found_text_witness :
    resolve flatHeap (ValueOf (some nameStruct)) "Name.username.somevalue2.x" =
      .ret (none, some "string does not have field username: somevalue2.x left to resolve") ∧
    resolve flatHeap (ValueOf (some nameStruct)) "Name.username" =
      .ret (none, some "string does not have field username: nothing left to resolve") := by
  have a := (C8_not_found_text flatHeap (ValueOf (some nameStruct))
    (.of (.val (.str "somename")) false) (.of (.val (.str "somename")) false)
    "Name.username.somevalue2.x" "username" ["Name"] ["somevalue2", "x"] (.named "string")
    rfl rfl rfl rfl rfl).2.1 (by decide)
  have b := (C8_not_found_text flatHeap (ValueOf (some nameStruct))
    (.of (.val (.str "somename")) false) (.of (.val (.str "somename")) false)
    "Name.username" "username" ["Name"] [] (.named "string")
    rfl rfl rfl rfl rfl).1 rfl
  exact ⟨a, b⟩

/-! ## Other shapes -/

/-- The shape dispatch on a value that is no sequence, struct or map. -/
theorem dispatch_other {u : Value} (t : String)
    (hk : u.Kind ≠ .Slice ∧ u.Kind ≠ .Array ∧ u.Kind ≠ .Struct ∧ u.Kind ≠ .Map) :
    dispatch u t = .ok .zero := by
  simp [dispatch, hk.1, hk.2.1, hk.2.2.1, hk.2.2.2]

/-- C9: when the current value, after unwrapping, is a value that is neither a
slice, an array, a struct nor a map (a string or a number, say), then for
every token the step selects nothing, and resolution fails with the not-found
text that names the type of that value. -/
theorem C9_other_shapes (h : Heap) (value : Value) (x : Slot) (ro : Bool)
    (s t : String) (ts : List String)
    (hunwrap : unwrap h value = .ret (.of x ro))
    (hk : (Value.of x ro).Kind ≠ .Slice ∧ (Value.of x ro).Kind ≠ .Array ∧
      (Value.of x ro).Kind ≠ .Struct ∧ (Value.of x ro).Kind ≠ .Map)
    (hs : Split s '.' = t :: ts) :
    ∃ ty, (Value.of x ro).Type = .ret ty ∧
      dispatch (.of x ro) t = .ok .zero ∧
      resolve h value s = .ret (none, some (ty.String ++ " does not have field " ++ t ++ ": " ++
        (if ts = [] then "nothing left to resolve"
         else Join ts "." ++ " left to resolve"))) := by
  have hd := dispatch_other t hk
  obtain ⟨ty, hty⟩ : ∃ ty, (Value.of x ro).Type = .ret ty := by
    cases x with
    | val v => exact ⟨_, rfl⟩
    | iface dyn => exact ⟨_, rfl⟩
  exact ⟨ty, hty, hd, resolve_not_found h hs hunwrap hd hty⟩

/-- C9 at the test values: below the string "somevalue" no token resolves. -/
theorem C9_other_shapes_witness :
    resolve flatHeap (ValueOf (some (.str "somevalue"))) "username" =
      .ret (none, some "string does not have field username: nothing left to resolve") ∧
    resolve flatHeap (ValueOf (some (.str "somevalue"))) "username.somevalue2" =
      .ret (none, some "string does not have field username: somevalue2 left to resolve") ∧
    resolve flatHeap (ValueOf (some (.int 12))) "0" =
      .ret (none, some "int does not have field 0: nothing left to resolve") := by
  obtain ⟨ty1, h1, _, r1⟩ := C9_other_shapes flatHeap (ValueOf (some (.str "somevalue")))
    (.val (.str "somevalue")) false "username" "username" [] rfl (by decide) rfl
  obtain ⟨ty2, h2, _, r2⟩ := C9_other_shapes flatHeap (ValueOf (some (.str "somevalue")))
    (.val (.str "somevalue")) false "username.somevalue2" "username" ["somevalue2"] rfl
    (by decide) rfl
  obtain ⟨ty3, h3, _, r3⟩ := C9_other_shapes flatHeap (ValueOf (some (.int 12)))
    (.val (.int 12)) false "0" "0" [] rfl (by decide) rfl
  cases h1
  cases h2
  cases h3
  exact ⟨r1, r2, r3⟩

/-! ## The entry points, read on the token sequence -/

/-- `Resolve` on a path whose first token is a key of the registry. -/
theorem Resolve_of_tokens (r : concreteResolver) (h : Heap) {p k : String}
    {rest : List String} {v : Option GoValue} (htok : tokens p = k :: rest) (hk : k ≠ "")
    (hget : mapGet r.args k = (v, true)) :
    r.Resolve h p =
      if rest = [] then .ret (v, none) else resolve h (ValueOf v) (Join rest ".") := by
  obtain ⟨hdot, hcase⟩ := Split_eq_cons htok
  rcases hcase with ⟨hnil, hs⟩ | ⟨hne, hs, _⟩
  · simp only [concreteResolver.Resolve, hs, SplitN_two_of_not_mem hdot, hk, if_false, hget,
      hnil, if_true]
  · have hsp : SplitN (k ++ "." ++ Join rest ".") '.' 2 = [k, Join rest "."] :=
      SplitN_two_append _ hdot
    simp only [concreteResolver.Resolve, hs, hsp, hk, if_false, hget, hne]

/-- `DirectResolve` on a value that is not a map: the first token is dropped. -/
theorem DirectResolve_of_tokens (h : Heap) {p k : String} {rest : List String}
    (v : Option GoValue) (htok : tokens p = k :: rest) (hk : k ≠ "")
    (hkind : (ValueOf v).Kind ≠ .Map) :
    DirectResolve h v p =
      if rest = [] then .ret (v, none) else resolve h (ValueOf v) (Join rest ".") := by
  obtain ⟨hdot, hcase⟩ := Split_eq_cons htok
  rcases hcase with ⟨hnil, hs⟩ | ⟨hne, hs, _⟩
  · simp only [DirectResolve, hs, SplitN_two_of_not_mem hdot, hk, if_false, hkind, hnil,
      if_true]
  · have hsp : SplitN (k ++ "." ++ Join rest ".") '.' 2 = [k, Join rest "."] :=
      SplitN_two_append _ hdot
    simp only [DirectResolve, hs, hsp, hk, if_false, hkind, hne]

/-- `DirectResolve` on a map: the whole normalized path is traversed. -/
theorem DirectResolve_of_map (h : Heap) (p : String) (v : Option GoValue)
    (hfirst : (tokens p).head? ≠ some "") (hkind : (ValueOf v).Kind = .Map) :
    DirectResolve h v p = resolve h (ValueOf v) (formatExpression p) := by
  unfold tokens at hfirst
  rw [head?_Split] at hfirst
  simp only [DirectResolve, hkind, if_true]
  cases hsp : SplitN (formatExpression p) '.' 2 with
  | nil =>
    rcases SplitN_two_cases '.' (formatExpression p) with ⟨_, h2⟩ | ⟨_, _, _, _, h2⟩ <;>
      rw [hsp] at h2 <;> simp at h2
  | cons t more =>
    rw [hsp] at hfirst
    have : t ≠ "" := by
      intro h0; rw [h0] at hfirst; exact hfirst rfl
    simp only [this, if_false]

/-- The last step of a path, when it selects a location reached through
exported fields only. -/
theorem resolve_terminal (h : Heap) {root v u : Value} {s t : String} {pre : List String}
    {x : Slot} (hs : Split s '.' = pre ++ [t]) (hwalk : walk h root pre = some v)
    (hunwrap : unwrap h v = .ret u) (hd : dispatch u t = .ok (.of x false)) :
    resolve h root s = .ret (x.toInterface, none) := by
  have h1 : resolve h root s = resolve h v (Join [t] ".") :=
    resolve_walk h pre s root v [t] hs (by simp) hwalk
  have h2 : Split (Join [t] ".") '.' = [t] := Split_Join_of_suffix pre s [t] hs (by simp)
  have ht : '.' ∉ t.data := (Split_eq_cons h2).1
  rw [h1]
  show resolve h v t = _
  rw [resolve_last h v ht, hunwrap]
  simp only [hd, Value.IsValid, Bool.not_true, Bool.false_eq_true, if_false]
  exact returnInterface_of_false x

/-- A pointer as the terminal value: when the last token of a path selects a
pointer-valued field, element or entry reached through exported fields only,
`Resolve` and `DirectResolve` return that pointer itself, nil or not, and not
what it points to. -/
theorem pointer_terminal (h : Heap) (val : Option GoValue) (pre : List String)
    (t : String) (v u : Value) (x : Slot) (elem : GoType) (addr : Option Nat)
    (hwalk : walk h (ValueOf val) pre = some v)
    (hunwrap : unwrap h v = .ret u)
    (hd : dispatch u t = .ok (.of x false))
    (hx : x.toInterface = some (.ptr elem addr)) :
    (∀ (r : concreteResolver) (p k : String),
      tokens p = k :: (pre ++ [t]) → k ≠ "" → mapGet r.args k = (val, true) →
      r.Resolve h p = .ret (some (.ptr elem addr), none)) ∧
    (∀ (p k : String),
      (ValueOf val).Kind ≠ .Map → tokens p = k :: (pre ++ [t]) → k ≠ "" →
      DirectResolve h val p = .ret (some (.ptr elem addr), none)) ∧
    (∀ (p : String),
      (ValueOf val).Kind = .Map → tokens p = pre ++ [t] → (tokens p).head? ≠ some "" →
      DirectResolve h val p = .ret (some (.ptr elem addr), none)) := by
  refine ⟨?_, ?_, ?_⟩
  · intro r p k htok hk hget
    rw [Resolve_of_tokens r h htok hk hget, if_neg (by simp)]
    have hsp := Split_Join_of_suffix [k] (formatExpression p) (pre ++ [t]) htok (by simp)
    rw [resolve_terminal h hsp hwalk hunwrap hd, hx]
  · intro p k hkind htok hk
    rw [DirectResolve_of_tokens h val htok hk hkind, if_neg (by simp)]
    have hsp := Split_Join_of_suffix [k] (formatExpression p) (pre ++ [t]) htok (by simp)
    rw [resolve_terminal h hsp hwalk hunwrap hd, hx]
  · intro p hkind htok hfirst
    rw [DirectResolve_of_map h p val hfirst hkind]
    rw [resolve_terminal h htok hwalk hunwrap hd, hx]

/-- The pointer terminals of the test values: "user.Parents[0].Parent.Name"
yields the pointer to the first name (address 0), from the registry and from
`DirectResolve`, and "user.Parent.Parent" yields a nil `*Person`. -/
theorem pointer_terminal_testUser :
    (NewResolver (some [("user", some testUser)])).Resolve personHeap
        "user.Parents[0].Parent.Name" = .ret (some (.ptr (.named "string") (some 0)), none) ∧
    DirectResolve personHeap (some testUser) "user.Parents[0].Parent.Name" =
      .ret (some (.ptr (.named "string") (some 0)), none) ∧
    DirectResolve personHeap (some testUser) "user.Parent.Parent" =
      .ret (some (.ptr personType none), none) := by
  have a := pointer_terminal personHeap (some testUser) ["Parents", "0", "Parent"] "Name"
    (.of (.val (.ptr personType (some 4))) false) (.of (.val (person (some 0) none [])) false)
    (.val (.ptr (.named "string") (some 0))) (.named "string") (some 0) rfl rfl rfl rfl
  have b := pointer_terminal personHeap (some testUser) ["Parent"] "Parent"
    (.of (.val (.ptr personType (some 2))) false) (.of (.val (person (some 1) none [])) false)
    (.val (.ptr personType none)) personType none rfl rfl rfl rfl
  exact ⟨a.1 (NewResolver (some [("user", some testUser)])) _ "user" rfl (by decide) rfl,
    a.2.1 _ "user" (by decide) rfl (by decide),
    b.2.1 _ "user" (by decide) rfl (by decide)⟩

/-- C10, the code at the failing input: in the registry
`{"user": struct{ p *string }{p: &s}}` the last token of "user.p" selects the
pointer-valued field `p` (`dispatch ... = .ok ...`), yet the pointer is not
returned: the call panics in `Interface()`, from the registry as from
`DirectResolve`. -/
theorem C10_private_pointer_panics :
    dispatch (ValueOf (some privatePointer)) "p" =
      .ok (.of (.val (.ptr (.named "string") (some 0))) true) ∧
    (NewResolver (some [("user", some privatePointer)])).Resolve flatHeap "user.p" =
      .panics
        "reflect.Value.Interface: cannot return value obtained from unexported field or method" ∧
    DirectResolve flatHeap (some privatePointer) "user.p" =
      .panics
        "reflect.Value.Interface: cannot return value obtained from unexported field or method" :=
  ⟨rfl, rfl, rfl⟩

/-! ## Chains of records -/

/-- A location that points to a record unwraps to that record. -/
theorem unwrap_pointee (h : Heap) {x : Slot} {r : GoValue} (hx : pointee h x = some r) :
    unwrap h (.of x false) = .ret (.of (.val r) false) := by
  cases x with
  | iface dyn => simp [pointee] at hx
  | val v =>
    cases v with
    | ptr e addr =>
      cases addr with
      | none => simp [pointee] at hx
      | some a =>
        simp only [pointee] at hx
        cases ha : h a with
        | iface dyn => simp [ha] at hx
        | val w =>
          cases w <;> simp [ha] at hx
          subst hx
          simp [unwrap, Value.Kind, GoValue.Kind, Value.Elem, ha]
    | _ => simp [pointee] at hx

/-- One step from a record into one of its exported fields. -/
theorem resolve_field_step (h : Heap) {value : Value} {ty : GoType}
    {fields : List (String × Bool × Slot)} {nilEmbedded : List String} {f : String} {x : Slot}
    (rest : String)
    (hunwrap : unwrap h value = .ret (.of (.val (.struct ty fields nilEmbedded)) false))
    (hf : lookupField f fields = some (true, x)) (hdot : '.' ∉ f.data) :
    resolve h value (f ++ "." ++ rest) = resolve h (.of x false) rest := by
  rw [resolve_more h value rest hdot, hunwrap]
  simp only [dispatch_struct, hf, Value.IsValid, Bool.not_true, Bool.false_eq_true, if_false,
    Bool.or_self]

/-- A location that holds a slice or an array unwraps to itself. -/
theorem unwrap_elements (h : Heap) {x : Slot} {xs : List Slot} (hx : x.elements = some xs) :
    unwrap h (.of x false) = .ret (.of x false) ∧
    ∃ e, x = .val (.slice e xs) ∨ x = .val (.array e xs) := by
  cases x with
  | iface dyn => simp [Slot.elements] at hx
  | val v =>
    cases v <;> simp [Slot.elements] at hx
    · subst hx
      exact ⟨by simp [unwrap, Value.Kind, GoValue.Kind], _, Or.inl rfl⟩
    · subst hx
      exact ⟨by simp [unwrap, Value.Kind, GoValue.Kind], _, Or.inr rfl⟩

/-- One step from a sequence into one of its elements. -/
theorem resolve_element_step (h : Heap) {x y : Slot} {xs : List Slot} {i : String} {j : Int}
    (rest : String) (hx : x.elements = some xs) (hi : Atoi i = some j) (hj : 0 ≤ j)
    (hy : xs[j.toNat]? = some y) :
    resolve h (.of x false) (i ++ "." ++ rest) = resolve h (.of y false) rest := by
  have hdot := not_mem_dot_of_Atoi hi
  have hlt : j.toNat < xs.length := by
    rcases Nat.lt_or_ge j.toNat xs.length with hl | hl
    · exact hl
    · rw [List.getElem?_eq_none hl] at hy; cases hy
  obtain ⟨hu, e, hseq⟩ := unwrap_elements h hx
  have hd : dispatch (.of x false) i = .ok (.of y false) := by
    have hseq2 : Value.of x false = .of (.val (.slice e xs)) false ∨
        Value.of x false = .of (.val (.array e xs)) false := by
      rcases hseq with rfl | rfl
      · exact Or.inl rfl
      · exact Or.inr rfl
    rw [dispatch_sequence hseq2 i, hi]
    simp only
    rw [if_neg (by omega), hy]
    rfl
  rw [resolve_more h _ rest hdot, hu]
  simp only [hd, Value.IsValid, Bool.not_true, Bool.false_eq_true, if_false]

/-- Chains through exported fields: for every chain of `n ≥ 1` records in
which each record holds, in an exported field, a non-nil pointer to the next
one (directly, or as an element of a sequence of pointers), resolving from the
first record the path made of the linking tokens followed by the name of an
exported field of the last record returns exactly what that field holds,
whatever the length of the chain. -/
theorem exported_chain_resolves (h : Heap) (links : List Link) :
    ∀ (value : Value) (first : GoValue) (ty : GoType)
      (fields : List (String × Bool × Slot)) (nilEmbedded : List String) (name : String)
      (x : Slot),
      unwrap h value = .ret (.of (.val first) false) →
      followChain h first links = some (.struct ty fields nilEmbedded) →
      lookupField name fields = some (true, x) →
      (∀ t ∈ chainTokens links ++ [name], '.' ∉ t.data) →
      resolve h value (Join (chainTokens links ++ [name]) ".") =
        .ret (x.toInterface, none) := by
  induction links with
  | nil =>
    intro value first ty fields nilEmbedded name x hroot hchain hfield hdots
    have hfirst : first = .struct ty fields nilEmbedded := by
      cases first <;> simp [followChain] at hchain
      obtain ⟨rfl, rfl, rfl⟩ := hchain
      rfl
    subst hfirst
    have hdot : '.' ∉ name.data := hdots name (by simp [chainTokens])
    show resolve h value name = _
    rw [resolve_last h value hdot, hroot]
    simp only [dispatch_struct, hfield, Value.IsValid, Bool.not_true, Bool.false_eq_true,
      if_false, Bool.or_self]
    exact returnInterface_of_false x
  | cons l ls ih =>
    intro value first ty fields nilEmbedded name x hroot hchain hfield hdots
    simp only [followChain] at hchain
    cases hl : followLink h first l with
    | none => simp [hl] at hchain
    | some next =>
      simp only [hl, Option.some_bind] at hchain
      have hrest : ∀ t ∈ chainTokens ls ++ [name], '.' ∉ t.data := by
        intro t ht
        apply hdots t
        simp only [chainTokens, List.append_assoc, List.mem_append] at ht ⊢
        exact Or.inr ht
      have hne : chainTokens ls ++ [name] ≠ [] := by simp
      cases first with
      | struct ty1 fields1 nilEmbedded1 =>
        cases l with
        | direct f =>
          have hf : '.' ∉ f.data := hdots f (by simp [chainTokens, Link.tokens])
          simp only [followLink] at hl
          cases hlf : lookupField f fields1 with
          | none => simp [hlf] at hl
          | some p =>
            obtain ⟨ex, y⟩ := p
            cases ex with
            | false => simp [hlf] at hl
            | true =>
              simp only [hlf] at hl
              have hjoin : Join (chainTokens (Link.direct f :: ls) ++ [name]) "." =
                  f ++ "." ++ Join (chainTokens ls ++ [name]) "." := by
                simp only [chainTokens, Link.tokens, List.singleton_append, List.cons_append]
                exact Join_cons_of_ne_nil f "." hne
              rw [hjoin, resolve_field_step h _ hroot hlf hf]
              exact ih _ next ty fields nilEmbedded name x (unwrap_pointee h hl) hchain hfield
                hrest
        | element f i =>
          have hf : '.' ∉ f.data := hdots f (by simp [chainTokens, Link.tokens])
          simp only [followLink] at hl
          cases hlf : lookupField f fields1 with
          | none => simp [hlf] at hl
          | some p =>
            obtain ⟨ex, y⟩ := p
            cases ex with
            | false => simp [hlf] at hl
            | true =>
              simp only [hlf] at hl
              cases hys : y.elements with
              | none => simp [hys] at hl
              | some xs =>
                cases hi : Atoi i with
                | none => simp [hys, hi] at hl
                | some j =>
                  simp only [hys, hi] at hl
                  by_cases hj : 0 ≤ j
                  · simp only [hj, if_true] at hl
                    cases hz : xs[j.toNat]? with
                    | none => simp [hz] at hl
                    | some z =>
                      simp only [hz, Option.some_bind] at hl
                      have hjoin : Join (chainTokens (Link.element f i :: ls) ++ [name]) "." =
                          f ++ "." ++ (i ++ "." ++ Join (chainTokens ls ++ [name]) ".") := by
                        simp only [chainTokens, Link.tokens, List.cons_append,
                          List.nil_append]
                        rw [Join_cons_of_ne_nil f "." (by simp),
                          Join_cons_of_ne_nil i "." hne]
                      rw [hjoin, resolve_field_step h _ hroot hlf hf,
                        resolve_element_step h _ hys hi hj hz]
                      exact ih _ next ty fields nilEmbedded name x (unwrap_pointee h hl) hchain
                        hfield hrest
                  · simp [hj] at hl
      | _ => simp [followLink] at hl

/-- The chains of the pointer tests: from `user`, they end in the pointer held
by the field `Name` of their last record. -/
theorem exported_chain_resolves_testUser :
    resolve personHeap (ValueOf (some testUser)) "Name" =
      .ret (some (.ptr (.named "string") (some 0)), none) ∧
    resolve personHeap (ValueOf (some testUser)) "Parent.Name" =
      .ret (some (.ptr (.named "string") (some 1)), none) ∧
    resolve personHeap (ValueOf (some testUser)) "Parents.0.Parents.0.Parent.Name" =
      .ret (some (.ptr (.named "string") (some 0)), none) := by
  have hu : unwrap personHeap (ValueOf (some testUser)) =
      .ret (.of (.val testUser) false) := rfl
  have a := exported_chain_resolves personHeap [] (ValueOf (some testUser)) testUser
    personType _ _ "Name" _ hu rfl rfl (by decide)
  have b := exported_chain_resolves personHeap [.direct "Parent"] (ValueOf (some testUser))
    testUser personType _ _ "Name" _ hu rfl rfl (by decide)
  have c := exported_chain_resolves personHeap
    [.element "Parents" "0", .element "Parents" "0", .direct "Parent"]
    (ValueOf (some testUser)) testUser personType _ _ "Name" _ hu rfl rfl (by decide)
  exact ⟨a, b, c⟩

/-- C11, the code at the failing input: `T{Name: "a", next: &T{Name: "b"}}` of
the type `type T struct{ Name string; next *T }` is a chain of two records, the
first holding a non-nil pointer to the second, whose field `Name` holds "b" and
resolves to it when the second record is the root.  Resolving the linking token
followed by that field name, "next.Name", does not return "b": the call panics
in `Interface()`, from the first record, from the registry and from
`DirectResolve`. -/
theorem C11_private_link_panics :
    resolve linkedHeap (.of (linkedHeap 0) false) "Name" = .ret (some (.str "b"), none) ∧
    resolve linkedHeap (ValueOf (some (linked "a" (some 0)))) "next.Name" =
      .panics
        "reflect.Value.Interface: cannot return value obtained from unexported field or method" ∧
    (NewResolver (some [("user", some (linked "a" (some 0)))])).Resolve linkedHeap
        "user.next.Name" =
      .panics
        "reflect.Value.Interface: cannot return value obtained from unexported field or method" ∧
    DirectResolve linkedHeap (some (linked "a" (some 0))) "user.next.Name" =
      .panics
        "reflect.Value.Interface: cannot return value obtained from unexported field or method" :=
  ⟨rfl, rfl, rfl, rfl⟩

/-! ## Stepping into nil -/

/-- A step applied to no value panics in `value.Type()`, whatever the path. -/
theorem resolve_zero_panics (h : Heap) {value : Value} (s : String)
    (hunwrap : unwrap h value = .ret .zero) :
    resolve h value s = .panics "reflect: call of reflect.Value.Type on zero Value" := by
  have hd : ∀ t, dispatch .zero t = .ok .zero := fun t =>
    dispatch_other t (by simp [Value.Kind])
  rcases SplitN_two_cases '.' s with ⟨hs, _⟩ | ⟨t, r, hs, ht, _⟩
  · rw [resolve_last h value hs, hunwrap]
    simp only [hd, Value.IsValid, Bool.not_false, if_true, Value.Type]
  · rw [hs, show String.singleton '.' = "." from rfl, resolve_more h value r ht, hunwrap]
    simp only [hd, Value.IsValid, Bool.not_false, if_true, Value.Type]

/-- A nil pointer unwraps to no value. -/
theorem unwrap_nil_pointer (h : Heap) (elem : GoType) (ro : Bool) :
    unwrap h (.of (.val (.ptr elem none)) ro) = .ret .zero := by
  simp [unwrap, Value.Kind, GoValue.Kind, Value.Elem]

/-- A nil interface value unwraps to no value. -/
theorem unwrap_nil_interface (h : Heap) :
    unwrap h (.of (.iface none) false) = .ret .zero ∧ unwrap h (ValueOf none) = .ret .zero := by
  simp [unwrap, Value.Kind, Value.Interface, Slot.toInterface, ValueOf]

/-- A traversal step applied to a nil pointer or to a nil interface value
panics, whatever tokens are left. -/
theorem resolve_nil_panics (h : Heap) (s : String) :
    (∀ elem ro, resolve h (.of (.val (.ptr elem none)) ro) s =
      .panics "reflect: call of reflect.Value.Type on zero Value") ∧
    resolve h (.of (.iface none) false) s =
      .panics "reflect: call of reflect.Value.Type on zero Value" ∧
    resolve h (ValueOf none) s =
      .panics "reflect: call of reflect.Value.Type on zero Value" :=
  ⟨fun elem ro => resolve_zero_panics h s (unwrap_nil_pointer h elem ro),
   resolve_zero_panics h s (unwrap_nil_interface h).1,
   resolve_zero_panics h s (unwrap_nil_interface h).2⟩

/-- C12, the code at the failing input: in the test fixture the `Parent` of
`user.Parent` is a nil pointer, and resolving "user.Parent.Parent.Name" does
not return an error but panics, from the registry as from `DirectResolve`; so
does resolving below a registry entry that is a nil interface value. -/
theorem C12_nil_step_panics :
    (NewResolver (some [("user", some testUser)])).Resolve personHeap
        "user.Parent.Parent.Name" =
      .panics "reflect: call of reflect.Value.Type on zero Value" ∧
    DirectResolve personHeap (some testUser) "user.Parent.Parent.Name" =
      .panics "reflect: call of reflect.Value.Type on zero Value" ∧
    (NewResolver (some [("user", none)])).Resolve flatHeap "user.Name" =
      .panics "reflect: call of reflect.Value.Type on zero Value" :=
  ⟨rfl, rfl, rfl⟩

/-! ## The registry lookup -/

theorem mapGet_of_not_mem {m : Option (List (String × Option GoValue))} {k : String}
    (hk : ∀ entries, m = some entries → ∀ e ∈ entries, e.1 ≠ k) :
    mapGet m k = (none, false) := by
  cases m with
  | none => rfl
  | some entries =>
    have hfind : entries.find? (fun e => e.1 = k) = none := by
      rw [List.find?_eq_none]
      intro e he
      simpa using hk entries rfl e he
    simp [mapGet, hfind]

/-- C13: for every registry and every path whose normalized first token `k` is
not empty and is not a key of the registry, `Resolve` returns a nil value and
the error "could not resolve <normalized path>: <k> was not found", whatever
the heap and the rest of the path: the outcome is fixed before any traversal. -/
theorem C13_root_not_found (r : concreteResolver) (h : Heap) (p k : String)
    (rest : List String) (htok : tokens p = k :: rest) (hk : k ≠ "")
    (hkey : ∀ entries, r.args = some entries → ∀ e ∈ entries, e.1 ≠ k) :
    r.Resolve h p = .ret (none, some ("could not resolve " ++ formatExpression p ++ ": " ++ k
      ++ " was not found")) := by
  have hget := mapGet_of_not_mem hkey
  have hhead : (SplitN (formatExpression p) '.' 2).head? = some k := by
    rw [← head?_Split]
    unfold tokens at htok
    rw [htok]; rfl
  cases hsp : SplitN (formatExpression p) '.' 2 with
  | nil => rw [hsp] at hhead; cases hhead
  | cons t more =>
    rw [hsp] at hhead
    simp only [List.head?_cons, Option.some.injEq] at hhead
    subst hhead
    simp only [concreteResolver.Resolve, hsp, hk, if_false, hget]

/-- C13 at the test values: on the empty registry "user" is not found, and
"user[0]" is reported in its normalized form "user.0". -/
theorem C13_root_not_found_witness :
    (NewResolver (some [])).Resolve flatHeap "user" =
      .ret (none, some "could not resolve user: user was not found") ∧
    (NewResolver (some [("other", some (.int 1))])).Resolve flatHeap "user[0]" =
      .ret (none, some "could not resolve user.0: user was not found") ∧
    (NewResolver none).Resolve flatHeap "user.Name" =
      .ret (none, some "could not resolve user.Name: user was not found") :=
  ⟨C13_root_not_found (NewResolver (some [])) flatHeap "user" "user" [] rfl (by decide)
      (by intro entries he e hmem; cases he; cases hmem),
   C13_root_not_found (NewResolver (some [("other", some (.int 1))])) flatHeap "user[0]" "user"
      ["0"] rfl (by decide)
      (by
        intro entries he e hmem
        cases he
        simp only [List.mem_singleton] at hmem
        subst hmem
        decide),
   C13_root_not_found (NewResolver none) flatHeap "user.Name" "user" ["Name"] rfl (by decide)
      (by intro entries he; cases he)⟩

/-! ## Plain tokens and `AddValue` -/

theorem replaceChars_of_not_mem (old : Char) (new : List Char) {x : List Char}
    (hx : old ∉ x) : replaceChars old new x = x := by
  induction x with
  | nil => rfl
  | cons c cs ih =>
    have hc : c ≠ old := fun e => hx (by simp [e])
    have hcs : old ∉ cs := fun hm => hx (List.mem_cons_of_mem _ hm)
    simp [replaceChars, hc, ih hcs]

theorem isPlainToken_iff {t : String} :
    isPlainToken t = true ↔ '.' ∉ t.data ∧ '[' ∉ t.data ∧ ']' ∉ t.data := by
  unfold isPlainToken
  rw [List.all_eq_true]
  constructor
  · intro hall
    refine ⟨?_, ?_, ?_⟩ <;> intro hm <;> have := hall _ hm <;> simp at this
  · rintro ⟨h1, h2, h3⟩ c hc
    have e1 : c ≠ '.' := fun e => h1 (e ▸ hc)
    have e2 : c ≠ '[' := fun e => h2 (e ▸ hc)
    have e3 : c ≠ ']' := fun e => h3 (e ▸ hc)
    simp [e1, e2, e3]

/-- Normalization leaves a plain token as it is. -/
theorem formatExpression_of_plain {t : String} (ht : isPlainToken t = true) :
    formatExpression t = t := by
  obtain ⟨_, h2, h3⟩ := isPlainToken_iff.mp ht
  apply String.ext
  simp only [formatExpression, Replace]
  rw [replaceChars_of_not_mem _ _ h2, replaceChars_of_not_mem _ _ h3]

/-- The token sequence of a plain token is the token alone. -/
theorem tokens_of_plain {t : String} (ht : isPlainToken t = true) : tokens t = [t] := by
  unfold tokens
  rw [formatExpression_of_plain ht]
  exact Split_of_not_mem (isPlainToken_iff.mp ht).1

/-- The token sequence of a plain token followed by a dot and a remainder. -/
theorem tokens_plain_dot {t : String} (r : String) (ht : isPlainToken t = true) :
    tokens (t ++ "." ++ r) = t :: tokens r := by
  unfold tokens
  rw [formatExpression_append, formatExpression_append, formatExpression_of_plain ht,
    show formatExpression "." = "." from rfl]
  exact Split_append (formatExpression r) (isPlainToken_iff.mp ht).1

theorem mapGet_cons_self (entries : List (String × Option GoValue)) (k : String)
    (v : Option GoValue) : mapGet (some ((k, v) :: entries)) k = (v, true) := by
  simp [mapGet, List.find?]

/-- C14, as the specification words it, fails: a value added under the name
"a.b" is not what `Resolve("a.b")` returns, since the registry is asked for the
first token "a" of the path. -/
theorem C14_counterexample :
    isPlainToken "a.b" = false ∧
    addThenResolve (NewResolver (some [])) flatHeap "a.b" (some (.int 1)) "a.b" =
      .ret (none, some "could not resolve a.b: a was not found") ∧
    addThenResolve (NewResolver (some [("a", some (.str "old"))])) flatHeap "a[b]"
        (some (.int 1)) "a[b]" =
      .ret (none, some "string does not have field b: nothing left to resolve") :=
  ⟨rfl, rfl, rfl⟩

/-- C14, amended: for every registry whose map is not nil, every name that is
not empty and has none of the characters `.`, `[`, `]`, and every value `v`:
after `AddValue(name, v)`, `Resolve(name)` returns `v` with no error; and after
`AddValue(name, v1)` followed by `AddValue(name, v2)`, `Resolve(name)` returns
`v2`. -/
theorem C14_add_then_resolve (entries : List (String × Option GoValue)) (h : Heap)
    (name : String) (v v1 v2 : Option GoValue)
    (hne : name ≠ "") (hplain : isPlainToken name = true) :
    addThenResolve (NewResolver (some entries)) h name v name = .ret (v, none) ∧
    addTwiceThenResolve (NewResolver (some entries)) h name v1 v2 name = .ret (v2, none) := by
  have htok := tokens_of_plain hplain
  have key : ∀ (es : List (String × Option GoValue)) (w : Option GoValue),
      addThenResolve (NewResolver (some es)) h name w name = .ret (w, none) := by
    intro es w
    simp only [addThenResolve, NewResolver, concreteResolver.AddValue]
    rw [Resolve_of_tokens _ h htok hne (mapGet_cons_self _ name w)]
    simp
  refine ⟨key entries v, ?_⟩
  simp only [addTwiceThenResolve, NewResolver, concreteResolver.AddValue]
  exact key _ v2

/-- C14 (amended) at the test values: what is added under "invoice" is what
"invoice" resolves to, the later of two values when two are added. -/
theorem C14_add_then_resolve_witness :
    addThenResolve (NewResolver (some [])) flatHeap "invoice" (some nestedMap) "invoice" =
      .ret (some nestedMap, none) ∧
    addTwiceThenResolve (NewResolver (some [])) flatHeap "invoice" (some (.int 1))
        (some (.int 2)) "invoice" = .ret (some (.int 2), none) :=
  ⟨(C14_add_then_resolve [] flatHeap "invoice" (some nestedMap) none none (by decide) rfl).1,
   (C14_add_then_resolve [] flatHeap "invoice" none (some (.int 1)) (some (.int 2))
      (by decide) rfl).2⟩

/-! ## The root of `DirectResolve` -/

/-- The root of `DirectResolve(v, p)` with a non-empty first token.  When `v`
is a map, the whole normalized path, first token included, is traversed, so
that on a map with `string` keys a single-token path `k` gives the entry `v[k]`
(or the not-found error of the map), not `v`.  When `v` is not a map, the first
token is consumed without being compared to anything: a single-token path
returns `v` itself, and for all non-empty plain tokens `t1`, `t2` and every
remainder `r`, `DirectResolve(v, t1.r)` equals `DirectResolve(v, t2.r)` and
equals traversing `v` with (the normalized) `r`. -/
theorem DirectResolve_root (h : Heap) (v : Option GoValue) :
    ((ValueOf v).Kind = .Map →
      (∀ p, (tokens p).head? ≠ some "" →
        DirectResolve h v p = resolve h (ValueOf v) (formatExpression p)) ∧
      (∀ e es p k, v = some (.map e es) → tokens p = [k] → k ≠ "" →
        DirectResolve h v p =
          match lookupKey k es with
          | some x => .ret (x.toInterface, none)
          | none => .ret (none, some ((GoType.map e).String ++ " does not have field " ++ k
              ++ ": nothing left to resolve")))) ∧
    ((ValueOf v).Kind ≠ .Map →
      (∀ p k, tokens p = [k] → k ≠ "" → DirectResolve h v p = .ret (v, none)) ∧
      (∀ t1 t2 r, t1 ≠ "" → isPlainToken t1 = true → t2 ≠ "" → isPlainToken t2 = true →
        DirectResolve h v (t1 ++ "." ++ r) = DirectResolve h v (t2 ++ "." ++ r) ∧
        DirectResolve h v (t1 ++ "." ++ r) = resolve h (ValueOf v) (formatExpression r))) := by
  constructor
  · intro hkind
    refine ⟨fun p hp => DirectResolve_of_map h p v hp hkind, ?_⟩
    intro e es p k hv htok hk
    have hfirst : (tokens p).head? ≠ some "" := by
      rw [htok]
      simpa using hk
    rw [DirectResolve_of_map h p v hfirst hkind]
    obtain ⟨hdot, hcase⟩ := Split_eq_cons htok
    rcases hcase with ⟨_, hs⟩ | ⟨hne, _, _⟩
    · rw [hs, hv, resolve_last h _ hdot]
      have hu : unwrap h (ValueOf (some (.map e es))) = .ret (.of (.val (.map e es)) false) := by
        simp [unwrap, ValueOf, Value.Kind, GoValue.Kind]
      rw [hu]
      simp only [dispatch_map]
      cases lookupKey k es with
      | none =>
        simp only [Value.IsValid, Bool.not_false, if_true, Value.Type, GoValue.Type]
      | some x =>
        simp only [Value.IsValid, Bool.not_true, Bool.false_eq_true, if_false]
        exact returnInterface_of_false x
    · exact absurd rfl hne
  · intro hkind
    have hrest : ∀ t r, t ≠ "" → isPlainToken t = true →
        DirectResolve h v (t ++ "." ++ r) = resolve h (ValueOf v) (formatExpression r) := by
      intro t r hne hplain
      have htok := tokens_plain_dot r hplain
      rw [DirectResolve_of_tokens h v htok hne hkind]
      unfold tokens
      rw [if_neg (Split_ne_nil '.' _)]
      have := Join_Split '.' (formatExpression r)
      rw [show String.singleton '.' = "." from rfl] at this
      rw [this]
    refine ⟨?_, ?_⟩
    · intro p k htok hk
      rw [DirectResolve_of_tokens h v htok hk hkind, if_pos rfl]
    · intro t1 t2 r h1 hp1 h2 hp2
      exact ⟨by rw [hrest t1 r h1 hp1, hrest t2 r h2 hp2], hrest t1 r h1 hp1⟩

/-- The root of `DirectResolve` at the test values: on the map of the
nested-map tests the single token "name" yields the entry, not the map; on the
`user` of the pointer tests any first token does, and a single token yields
`user` itself. -/
theorem DirectResolve_root_testValues :
    DirectResolve flatHeap (some nestedMap) "name" =
      .ret (some (.map GoType.emptyInterface [("value", .iface (some (.str "somename")))]),
        none) ∧
    DirectResolve personHeap (some testUser) "anything" = .ret (some testUser, none) ∧
    DirectResolve personHeap (some testUser) "user.Parent.Name" =
      DirectResolve personHeap (some testUser) "x.Parent.Name" ∧
    DirectResolve personHeap (some testUser) "user.Parent.Name" =
      resolve personHeap (ValueOf (some testUser)) "Parent.Name" := by
  have a := ((DirectResolve_root flatHeap (some nestedMap)).1 rfl).2 _ _ "name" "name" rfl
    rfl (by decide)
  have b := (DirectResolve_root personHeap (some testUser)).2 (by decide)
  have c := b.2 "user" "x" "Parent.Name" (by decide) rfl (by decide) rfl
  exact ⟨a, b.1 "anything" "anything" rfl (by decide), c.1, c.2⟩

/-- C15, the code at the failing input: `map[int]string{1: "a"}` is a map, and
`DirectResolve` hands it the whole path "1", first token included; the result
is not the entry under the key 1 (nor a not-found error): the call panics in
`MapIndex`, which is given the token as a `string`.  The same happens at a map
of that type below the root of a registry. -/
theorem C15_int_key_map_panics :
    (ValueOf (some intKeyMap)).Kind = .Map ∧
    DirectResolve flatHeap (some intKeyMap) "1" =
      .panics "reflect.Value.MapIndex: value of type string is not assignable to type int" ∧
    (NewResolver (some [("m", some intKeyMap)])).Resolve flatHeap "m[1]" =
      .panics "reflect.Value.MapIndex: value of type string is not assignable to type int" :=
  ⟨rfl, rfl, rfl⟩

/-! ## Empty tokens -/

/-- C16, as the specification words it, fails: below a map that has the empty
string as a key, the paths "a." and "a[]" (tokens "a" and "") resolve to the
entry under that key, and "a..b" goes on through it. -/
theorem C16_counterexample :
    tokens "a." = ["a", ""] ∧ tokens "a[]" = ["a", ""] ∧
    (NewResolver (some [("a", some emptyKeyMap)])).Resolve flatHeap "a." =
      .ret (some (.int 1), none) ∧
    (NewResolver (some [("a", some emptyKeyMap)])).Resolve flatHeap "a[]" =
      .ret (some (.int 1), none) ∧
    DirectResolve flatHeap (some (.struct (.named "T") [("A", true, .val emptyKeyMap)] []))
      "a.A." = .ret (some (.int 1), none) ∧
    tokens "x..value" = ["x", "", "value"] ∧
    (NewResolver (some [("x", some (.map GoType.emptyInterface
      [("", .iface (some nestedMap))]))])).Resolve flatHeap "x..name.value" =
      .ret (some (.str "somename"), none) :=
  ⟨rfl, rfl, rfl, rfl, rfl, rfl, rfl⟩

/-- C16, amended: an empty first token is refused by both entry points with
"could not resolve: expression is empty".  A later empty token is looked up
like any other token, at the value `x` that the tokens before it lead to.
When `x` is a slice or an array, resolution fails with
"could not parse index of array".  When `x` is a struct (which has no field of
the empty name), a map with `string` keys that lacks the key "", or a value
that is neither a sequence, a struct nor a map, resolution fails with the
not-found text that names the type of `x`, the empty token and what is left to
resolve.  When `x` is a map with `string` keys that has the key "", the empty
token selects the entry under that key: traversal continues from it when
tokens follow, and as the last token it is the result when the map was not
reached through an unexported field. -/
theorem C16_empty_token (h : Heap) :
    (∀ (r : concreteResolver) (v : Option GoValue) (p : String),
      (tokens p).head? = some "" →
      r.Resolve h p = .ret (none, some "could not resolve: expression is empty") ∧
      DirectResolve h v p = .ret (none, some "could not resolve: expression is empty")) ∧
    (∀ (root v : Value) (s : String) (pre ts : List String) (x : Slot) (ro : Bool),
      Split s '.' = pre ++ "" :: ts → walk h root pre = some v →
      unwrap h v = .ret (.of x ro) →
      (∀ el xs, x = .val (.slice el xs) ∨ x = .val (.array el xs) →
        resolve h root s = .ret (none, some "could not parse index of array")) ∧
      (∀ ty fields nilEmbedded, x = .val (.struct ty fields nilEmbedded) →
        lookupField "" fields = none → "" ∉ nilEmbedded →
        resolve h root s = .ret (none, some (ty.String ++ " does not have field " ++ "" ++ ": "
          ++ (if ts = [] then "nothing left to resolve"
              else Join ts "." ++ " left to resolve")))) ∧
      (∀ e es, x = .val (.map e es) → lookupKey "" es = none →
        resolve h root s = .ret (none, some ((GoType.map e).String ++ " does not have field "
          ++ "" ++ ": " ++ (if ts = [] then "nothing left to resolve"
              else Join ts "." ++ " left to resolve")))) ∧
      ((Value.of x ro).Kind ≠ .Slice ∧ (Value.of x ro).Kind ≠ .Array ∧
          (Value.of x ro).Kind ≠ .Struct ∧ (Value.of x ro).Kind ≠ .Map →
        ∃ ty, (Value.of x ro).Type = .ret ty ∧
          resolve h root s = .ret (none, some (ty.String ++ " does not have field " ++ ""
            ++ ": " ++ (if ts = [] then "nothing left to resolve"
                else Join ts "." ++ " left to resolve")))) ∧
      (∀ e es y, x = .val (.map e es) → lookupKey "" es = some y →
        dispatch (.of x ro) "" = .ok (.of y ro) ∧
        (ts = [] → ro = false → resolve h root s = .ret (y.toInterface, none)) ∧
        (ts ≠ [] → resolve h root s = resolve h (.of y ro) (Join ts ".")))) := by
  refine ⟨?_, ?_⟩
  · intro r v p hp
    have hq : formatExpression p = "" ∨ (tokens p).head? = some "" := Or.inr hp
    have hsp := (first_token_empty_iff p).mp hq
    cases hs : SplitN (formatExpression p) '.' 2 with
    | nil => rw [hs] at hsp; cases hsp
    | cons t more =>
      rw [hs] at hsp
      simp only [List.head?_cons, Option.some.injEq] at hsp
      subst hsp
      simp [concreteResolver.Resolve, DirectResolve, hs]
  · intro root v s pre ts x ro hs hwalk hunwrap
    have h1 : resolve h root s = resolve h v (Join ("" :: ts) ".") :=
      resolve_walk h pre s root v ("" :: ts) hs (by simp) hwalk
    have h2 : Split (Join ("" :: ts) ".") '.' = "" :: ts :=
      Split_Join_of_suffix pre s ("" :: ts) hs (by simp)
    have hnf : ∀ ty, (Value.of x ro).Type = .ret ty → dispatch (.of x ro) "" = .ok .zero →
        resolve h root s = .ret (none, some (ty.String ++ " does not have field " ++ ""
          ++ ": " ++ (if ts = [] then "nothing left to resolve"
              else Join ts "." ++ " left to resolve"))) := by
      intro ty hty hd
      rw [h1]
      exact resolve_not_found h h2 hunwrap hd hty
    obtain ⟨hdot, hcase⟩ := Split_eq_cons h2
    refine ⟨?_, ?_, ?_, ?_, ?_⟩
    · intro el xs hx
      have hd : dispatch (.of x ro) "" = .error "could not parse index of array" := by
        have hseq : Value.of x ro = .of (.val (.slice el xs)) ro ∨
            Value.of x ro = .of (.val (.array el xs)) ro := by
          rcases hx with rfl | rfl
          · exact Or.inl rfl
          · exact Or.inr rfl
        rw [dispatch_sequence hseq "", show Atoi "" = none from rfl]
      rw [h1]
      rcases hcase with ⟨_, hj⟩ | ⟨_, hj, _⟩
      · rw [hj, resolve_last h v hdot, hunwrap]
        simp only [hd]
      · rw [hj, resolve_more h v _ hdot, hunwrap]
        simp only [hd]
    · intro ty fields nilEmbedded hx hfield hnil
      subst hx
      apply hnf ty rfl
      rw [dispatch_struct, hfield]
      simp only [hnil, if_false]
    · intro e es hx hkey
      subst hx
      apply hnf (GoType.map e) rfl
      rw [dispatch_map, hkey]
    · intro hk
      obtain ⟨ty, hty⟩ : ∃ ty, (Value.of x ro).Type = .ret ty := by
        cases x with
        | val w => exact ⟨_, rfl⟩
        | iface dyn => exact ⟨_, rfl⟩
      exact ⟨ty, hty, hnf ty hty (dispatch_other "" hk)⟩
    · intro e es y hx hkey
      subst hx
      have hd : dispatch (.of (.val (.map e es)) ro) "" = .ok (.of y ro) := by
        rw [dispatch_map, hkey]
      refine ⟨hd, ?_, ?_⟩
      · intro hts hro
        rcases hcase with ⟨_, hj⟩ | ⟨hne, _, _⟩
        · rw [h1, hj, resolve_last h v hdot, hunwrap]
          simp only [hd, Value.IsValid, Bool.not_true, Bool.false_eq_true, if_false]
          rw [hro]
          exact returnInterface_of_false y
        · exact absurd hts hne
      · intro hts
        rcases hcase with ⟨hnil, _⟩ | ⟨_, hj, _⟩
        · exact absurd hnil hts
        · rw [h1, hj, resolve_more h v _ hdot, hunwrap]
          simp only [hd, Value.IsValid, Bool.not_true, Bool.false_eq_true, if_false]

/-- C16 (amended) at the test values: an empty first token is refused; below
the slice `[]int{1, 2, 3}` an empty token is an invalid index, below the test
struct and below a string it is not found, and below the map with the key ""
it selects the entry. -/
theorem C16_empty_token_witness :
    (NewResolver (some [])).Resolve flatHeap ".a" =
      .ret (none, some "could not resolve: expression is empty") ∧
    resolve flatHeap (ValueOf (some ints123)) "" =
      .ret (none, some "could not parse index of array") ∧
    resolve flatHeap (ValueOf (some nameStruct)) ".x" =
      .ret (none, some "struct \x7b Name string \x7d does not have field : x left to resolve") ∧
    resolve flatHeap (ValueOf (some nameStruct)) "Name." =
      .ret (none, some "string does not have field : nothing left to resolve") ∧
    resolve flatHeap (ValueOf (some emptyKeyMap)) "" = .ret (some (.int 1), none) := by
  have a := ((C16_empty_token flatHeap).1 (NewResolver (some [])) none ".a" rfl).1
  have b := ((C16_empty_token flatHeap).2 (ValueOf (some ints123)) (ValueOf (some ints123))
    "" [] [] (.val ints123) false rfl rfl rfl).1 _ _ (Or.inl rfl)
  have c := ((C16_empty_token flatHeap).2 (ValueOf (some nameStruct))
    (ValueOf (some nameStruct)) ".x" [] ["x"] (.val nameStruct) false rfl rfl rfl).2.1
    _ _ _ rfl rfl (by decide)
  obtain ⟨ty, hty, d⟩ := ((C16_empty_token flatHeap).2 (ValueOf (some nameStruct))
    (.of (.val (.str "somename")) false) "Name." ["Name"] [] (.val (.str "somename")) false
    rfl rfl rfl).2.2.2.1 (by decide)
  cases hty
  have e := (((C16_empty_token flatHeap).2 (ValueOf (some emptyKeyMap))
    (ValueOf (some emptyKeyMap)) "" [] [] (.val emptyKeyMap) false rfl rfl rfl).2.2.2.2
    GoType.emptyInterface _ (.iface (some (.int 1))) rfl rfl).2.1 rfl rfl
  exact ⟨a, b, c, d, e⟩

/-! ## Unexported fields -/

/-- The last step into an unexported field of a struct panics in
`newValue.Interface()`. -/
theorem resolve_unexported_panics (h : Heap) {value : Value} {ty : GoType}
    {fields : List (String × Bool × Slot)} {nilEmbedded : List String} {ro : Bool} {f : String}
    {x : Slot}
    (hunwrap : unwrap h value = .ret (.of (.val (.struct ty fields nilEmbedded)) ro))
    (hf : lookupField f fields = some (false, x)) (hdot : '.' ∉ f.data) :
    dispatch (.of (.val (.struct ty fields nilEmbedded)) ro) f = .ok (.of x true) ∧
    resolve h value f = .panics
      "reflect.Value.Interface: cannot return value obtained from unexported field or method" := by
  have hd : dispatch (.of (.val (.struct ty fields nilEmbedded)) ro) f = .ok (.of x true) := by
    rw [dispatch_struct, hf]
    simp
  refine ⟨hd, ?_⟩
  rw [resolve_last h value hdot, hunwrap]
  simp only [hd, Value.IsValid, Bool.not_true, Bool.false_eq_true, if_false, returnInterface,
    Value.Interface, if_true]

/-- C17, the code at the failing input: for the struct
`struct \x7b name string \x7d` the path "user.name" does not fail with the not-found
error that "user.missing" gets, but panics, from the registry as from
`DirectResolve`. -/
theorem C17_unexported_field_panics :
    (NewResolver (some [("user", some privateStruct)])).Resolve flatHeap "user.name" =
      .panics
        "reflect.Value.Interface: cannot return value obtained from unexported field or method" ∧
    DirectResolve flatHeap (some privateStruct) "user.name" =
      .panics
        "reflect.Value.Interface: cannot return value obtained from unexported field or method" ∧
    (NewResolver (some [("user", some privateStruct)])).Resolve flatHeap "user.missing" =
      .ret (none, some
        "struct \x7b name string \x7d does not have field missing: nothing left to resolve") :=
  ⟨rfl, rfl, rfl⟩

/-! ## Layers unwrapped in one step -/

/-- C18, as the specification words it, fails: a location of interface type
that holds a pointer to a record is unwrapped through both layers in one
step, so that the two tokens of "p.Name" take the map entry and then the field
of the record behind interface and pointer. -/
theorem C18_counterexample :
    unwrap personHeap (.of (.iface (some (.ptr personType (some 2)))) false) =
      .ret (.of (.val (person (some 1) none [])) false) ∧
    peel personHeap (.of (.iface (some (.ptr personType (some 2)))) false) =
      some (.of (.val (.ptr personType (some 2))) false) ∧
    peel personHeap (.of (.val (.ptr personType (some 2))) false) =
      some (.of (.val (person (some 1) none [])) false) ∧
    tokens "p.Name" = ["p", "Name"] ∧
    DirectResolve personHeap (some pointerInMap) "p.Name" =
      .ret (some (.ptr (.named "string") (some 1)), none) :=
  ⟨rfl, rfl, rfl, rfl, rfl⟩

/-- C18, amended: before shape dispatch a step unwraps at most one interface
wrapper and then at most one pointer.  When unwrapping returns `u` for
`value`, then either nothing was unwrapped (`value` is neither interface nor
pointer), or exactly one layer was (a pointer, whatever it points to, or an
interface that holds no pointer), or exactly two were, and then `value` is an
interface and the layer below it a pointer. -/
theorem C18_unwrap_layers (h : Heap) (value u : Value) (hunwrap : unwrap h value = .ret u) :
    (u = value ∧ value.Kind ≠ .Interface ∧ value.Kind ≠ .Ptr) ∨
    (peel h value = some u ∧
      (value.Kind = .Ptr ∨ (value.Kind = .Interface ∧ u.Kind ≠ .Ptr))) ∨
    (value.Kind = .Interface ∧
      ∃ m, peel h value = some m ∧ m.Kind = .Ptr ∧ peel h m = some u) := by
  cases value with
  | zero =>
    left
    simp only [unwrap, Value.Kind, reduceCtorEq, if_false, Go.ret.injEq] at hunwrap
    exact ⟨hunwrap.symm, by simp [Value.Kind], by simp [Value.Kind]⟩
  | of x ro =>
    cases x with
    | iface dyn =>
      cases ro with
      | true => simp [unwrap, Value.Kind, Value.Interface] at hunwrap
      | false =>
        cases dyn with
        | none =>
          right; left
          simp only [unwrap, Value.Kind, Value.Interface, Slot.toInterface, ValueOf, if_true,
            reduceCtorEq, if_false, Bool.false_eq_true, Go.ret.injEq] at hunwrap
          subst hunwrap
          exact ⟨rfl, Or.inr ⟨rfl, by simp [Value.Kind]⟩⟩
        | some w =>
          cases w with
          | ptr e addr =>
            right; right
            simp only [unwrap, Value.Kind, Value.Interface, Slot.toInterface, ValueOf, if_true,
              GoValue.Kind, Bool.false_eq_true, if_false, Go.ret.injEq] at hunwrap
            subst hunwrap
            exact ⟨rfl, _, rfl, rfl, rfl⟩
          | _ =>
            right; left
            simp only [unwrap, Value.Kind, Value.Interface, Slot.toInterface, ValueOf, if_true,
              GoValue.Kind, reduceCtorEq, Bool.false_eq_true, if_false,
              Go.ret.injEq] at hunwrap
            subst hunwrap
            exact ⟨rfl, Or.inr ⟨rfl, by simp [Value.Kind, GoValue.Kind]⟩⟩
    | val w =>
      cases w with
      | ptr e addr =>
        right; left
        simp only [unwrap, Value.Kind, GoValue.Kind, reduceCtorEq, if_false, if_true,
          Go.ret.injEq] at hunwrap
        subst hunwrap
        exact ⟨rfl, Or.inl rfl⟩
      | _ =>
        left
        simp only [unwrap, Value.Kind, GoValue.Kind, reduceCtorEq, if_false,
          Go.ret.injEq] at hunwrap
        subst hunwrap
        exact ⟨rfl, by simp [Value.Kind, GoValue.Kind], by simp [Value.Kind, GoValue.Kind]⟩

/-- C18 (amended) at the test values: an interface that holds a pointer to a
`Person` loses two layers in one step, a pointer to a pointer only one. -/
theorem C18_unwrap_layers_witness :
    (∃ m, peel personHeap (.of (.iface (some (.ptr personType (some 2)))) false) = some m ∧
      m.Kind = .Ptr ∧ peel personHeap m = some (.of (.val (person (some 1) none [])) false)) ∧
    peel pointerHeap (.of (.val (.ptr (.ptr personType) (some 7))) false) =
      some (.of (.val (.ptr personType (some 2))) false) := by
  have a := C18_unwrap_layers personHeap
    (.of (.iface (some (.ptr personType (some 2)))) false)
    (.of (.val (person (some 1) none [])) false) rfl
  have b := C18_unwrap_layers pointerHeap
    (.of (.val (.ptr (.ptr personType) (some 7))) false)
    (.of (.val (.ptr personType (some 2))) false) rfl
  refine ⟨?_, ?_⟩
  · rcases a with ⟨_, hk, _⟩ | ⟨hp, _⟩ | ⟨_, hm⟩
    · exact absurd rfl hk
    · simp [peel, ValueOf, person] at hp
    · exact hm
  · rcases b with ⟨_, _, hk⟩ | ⟨hp, _⟩ | ⟨hk, _⟩
    · exact absurd rfl hk
    · exact hp
    · cases hk

/-! ## Termination and the number of calls -/

theorem length_Split_le (sep : Char) (s : String) : (Split s sep).length ≤ s.length + 1 := by
  generalize hn : s.length = n
  induction n using Nat.strong_induction_on generalizing s with
  | _ n ih =>
    rcases Split_cases sep s with ⟨_, h1, _⟩ | ⟨t, r, hs, _, h1, _⟩
    · rw [h1]; simp
    · have hlen : s.length = t.length + 1 + r.length := by rw [hs, length_append_sep]
      have := ih r.length (by omega) r rfl
      rw [h1, List.length_cons]
      omega

theorem unwrap_panics {h : Heap} {value : Value} {m : String}
    (hu : unwrap h value = .panics m) : m ≠ "out of fuel" := by
  unfold unwrap at hu
  by_cases hk : value.Kind = .Interface
  · simp only [hk, if_true] at hu
    cases value with
    | zero => simp [Value.Kind] at hk
    | of x ro =>
      cases ro with
      | false =>
        simp only [Value.Interface, Bool.false_eq_true, if_false] at hu
        split at hu <;> simp at hu
      | true =>
        simp only [Value.Interface, if_true] at hu
        cases hu
        decide
  · simp only [hk, if_false] at hu
    split at hu <;> simp at hu

theorem Type_panics {value : Value} {m : String} (hu : value.Type = .panics m) :
    m ≠ "out of fuel" := by
  cases value with
  | zero =>
    simp only [Value.Type, Go.panics.injEq] at hu
    subst hu
    decide
  | of x ro => cases x <;> simp [Value.Type] at hu

theorem FieldByName_panics {value : Value} {t m : String}
    (hu : value.FieldByName t = .panics m) : m ≠ "out of fuel" := by
  cases value with
  | zero => simp [Value.FieldByName] at hu
  | of x ro =>
    cases x with
    | iface dyn => simp [Value.FieldByName] at hu
    | val w =>
      cases w <;> simp only [Value.FieldByName, reduceCtorEq] at hu
      split at hu
      · cases hu
      · split at hu
        · simp only [Go.panics.injEq] at hu
          subst hu
          decide
        · cases hu

theorem MapIndex_panics {value : Value} {t m : String}
    (hu : value.MapIndex t = .panics m) : m ≠ "out of fuel" := by
  cases value with
  | zero => simp [Value.MapIndex] at hu
  | of x ro =>
    cases x with
    | iface dyn => simp [Value.MapIndex] at hu
    | val w =>
      cases w <;> simp only [Value.MapIndex, reduceCtorEq] at hu
      · split at hu <;> cases hu
      · split at hu
        · split at hu <;> cases hu
        · simp only [Go.panics.injEq] at hu
          intro heq
          rw [heq] at hu
          have hlen := congrArg String.length hu
          rw [String.length_append] at hlen
          have h1 : ("reflect.Value.MapIndex: value of type string is not assignable to type "
            ).length = 71 := by decide
          have h2 : ("out of fuel").length = 11 := by decide
          omega

theorem dispatch_panics {u : Value} {t m : String} (hd : dispatch u t = .panics m) :
    m ≠ "out of fuel" := by
  rw [dispatch_eq] at hd
  split at hd
  · split at hd
    · cases hd
    · split at hd <;> cases hd
  · split at hd
    · cases hf : u.FieldByName t with
      | panics m0 =>
        rw [hf] at hd
        simp only [Step.panics.injEq] at hd
        subst hd
        exact FieldByName_panics hf
      | ret found => rw [hf] at hd; cases hd
    · split at hd
      · cases hf : u.MapIndex t with
        | panics m0 =>
          rw [hf] at hd
          simp only [Step.panics.injEq] at hd
          subst hd
          exact MapIndex_panics hf
        | ret found => rw [hf] at hd; cases hd
      · cases hd

theorem returnInterface_panics {value : Value} {m : String}
    (hu : returnInterface value = .panics m) : m ≠ "out of fuel" := by
  cases value with
  | zero =>
    simp only [returnInterface, Value.Interface, Go.panics.injEq] at hu
    subst hu
    decide
  | of x ro =>
    cases ro with
    | false => simp [returnInterface, Value.Interface] at hu
    | true =>
      simp only [returnInterface, Value.Interface, if_true, Go.panics.injEq] at hu
      subst hu
      decide

/-- With one unit of fuel per call, as many units as the path has tokens are
never used up, and more fuel changes nothing. -/
theorem resolveAux_tokens_fuel (h : Heap) :
    ∀ (n : Nat) (value : Value) (s : String), (Split s '.').length ≤ n →
      resolveAux h n value s ≠ .panics "out of fuel" ∧
      ∀ m, (Split s '.').length ≤ m → resolveAux h n value s = resolveAux h m value s := by
  intro n
  induction n with
  | zero =>
    intro value s hn
    have := Split_ne_nil '.' s
    cases hsp : Split s '.' with
    | nil => exact absurd hsp this
    | cons t ts => rw [hsp] at hn; simp at hn
  | succ n ih =>
    intro value s hn
    rcases Split_cases '.' s with ⟨_, h1, h2⟩ | ⟨t, r, hs, _, h1, h2⟩
    · constructor
      · simp only [resolveAux, h2]
        cases hu : unwrap h value with
        | panics m0 =>
          simp only [ne_eq, Go.panics.injEq]
          exact unwrap_panics hu
        | ret u =>
          simp only
          cases hd : dispatch u s with
          | error e => simp
          | panics m0 =>
            simp only [ne_eq, Go.panics.injEq]
            exact dispatch_panics hd
          | ok nv =>
            simp only
            split
            · cases hty : u.Type with
              | panics m0 =>
                simp only [ne_eq, Go.panics.injEq]
                exact Type_panics hty
              | ret ty => simp
            · cases hri : returnInterface nv with
              | panics m0 =>
                simp only [ne_eq, Go.panics.injEq]
                exact returnInterface_panics hri
              | ret x => simp
      · intro m hm
        cases m with
        | zero =>
          rw [h1] at hm; simp at hm
        | succ m => simp only [resolveAux, h2]
    · have hr : (Split r '.').length ≤ n := by
        rw [h1, List.length_cons] at hn; omega
      constructor
      · simp only [resolveAux, h2]
        cases hu : unwrap h value with
        | panics m0 =>
          simp only [ne_eq, Go.panics.injEq]
          exact unwrap_panics hu
        | ret u =>
          simp only
          cases hd : dispatch u t with
          | error e => simp
          | panics m0 =>
            simp only [ne_eq, Go.panics.injEq]
            exact dispatch_panics hd
          | ok nv =>
            simp only
            split
            · cases hty : u.Type with
              | panics m0 =>
                simp only [ne_eq, Go.panics.injEq]
                exact Type_panics hty
              | ret ty => simp
            · exact (ih nv r hr).1
      · intro m hm
        cases m with
        | zero =>
          rw [h1] at hm; simp at hm
        | succ m =>
          have hrm : (Split r '.').length ≤ m := by
            rw [h1, List.length_cons] at hm; omega
          have key : ∀ v, resolveAux h n v r = resolveAux h m v r :=
            fun v => (ih v r hr).2 m hrm
          simp only [resolveAux, h2, key]

/-- C19: for every heap (of any size, cyclic or not), every value and every
path, `resolve` terminates: with one unit of fuel per call, a budget of as many
units as the path handed to it has tokens is never used up, so it makes at most
that many calls, and its result is the one any larger budget gives.  Each call
takes the first token and passes on the strictly shorter remainder, whose
tokens are the remaining ones. -/
theorem C19_calls_bounded_by_tokens (h : Heap) (value : Value) (s : String) (n : Nat)
    (hn : (Split s '.').length ≤ n) :
    resolveAux h n value s ≠ .panics "out of fuel" ∧
    resolveAux h n value s = resolve h value s ∧
    (∀ t ts, Split s '.' = t :: ts → ts ≠ [] →
      SplitN s '.' 2 = [t, Join ts "."] ∧ Split (Join ts ".") '.' = ts ∧
      (Join ts ".").length < s.length) := by
  obtain ⟨h1, h2⟩ := resolveAux_tokens_fuel h n value s hn
  refine ⟨h1, h2 (s.length + 1) (length_Split_le '.' s), ?_⟩
  intro t ts hs hts
  obtain ⟨hdot, hcase⟩ := Split_eq_cons hs
  rcases hcase with ⟨hnil, _⟩ | ⟨_, hseq, hsplit⟩
  · exact absurd hnil hts
  · refine ⟨?_, hsplit, ?_⟩
    · have := SplitN_two_append (Join ts ".") hdot
      rw [show String.singleton '.' = "." from rfl, ← hseq] at this
      exact this
    · have := length_append_sep '.' t (Join ts ".")
      rw [show String.singleton '.' = "." from rfl, ← hseq] at this
      omega

/-- C19 on a cyclic heap: every `Node` points back to the cell at address 0;
the path of four tokens is resolved with four units of fuel. -/
theorem C19_calls_bounded_by_tokens_witness :
    (Split "Next.Next.Next.Name" '.').length ≤ 4 ∧
    resolveAux loopHeap 4 (.of (loopHeap 0) false) "Next.Next.Next.Name" =
      .ret (some (.str "n"), none) ∧
    resolve loopHeap (.of (loopHeap 0) false) "Next.Next.Next.Name" =
      .ret (some (.str "n"), none) := by
  have a := C19_calls_bounded_by_tokens loopHeap (.of (loopHeap 0) false)
    "Next.Next.Next.Name" 4 (by decide)
  have e : resolveAux loopHeap 4 (.of (loopHeap 0) false) "Next.Next.Next.Name" =
      .ret (some (.str "n"), none) := rfl
  exact ⟨by decide, e, a.2.1 ▸ e⟩

/-! ## Pointer to pointer -/

/-- C20: for every value that is a pointer to a pointer to a record (a `**T`
that points to a cell holding a `*T`, nil or not) and every token `t`, a
traversal step unwraps the outer pointer only, selects nothing, and fails with
the not-found text whose type is the inner pointer type `*T`, whatever the
record behind the inner pointer holds. -/
theorem C20_pointer_to_pointer (h : Heap) (ty : GoType) (a : Nat) (inner : Option Nat)
    (ro : Bool) (s t : String) (ts : List String)
    (hcell : h a = .val (.ptr ty inner)) (hs : Split s '.' = t :: ts) :
    unwrap h (.of (.val (.ptr (.ptr ty) (some a))) ro) = .ret (.of (.val (.ptr ty inner)) ro) ∧
    dispatch (.of (.val (.ptr ty inner)) ro) t = .ok .zero ∧
    resolve h (.of (.val (.ptr (.ptr ty) (some a))) ro) s =
      .ret (none, some ("*" ++ ty.String ++ " does not have field " ++ t ++ ": " ++
        (if ts = [] then "nothing left to resolve"
         else Join ts "." ++ " left to resolve"))) := by
  have hu : unwrap h (.of (.val (.ptr (.ptr ty) (some a))) ro) =
      .ret (.of (.val (.ptr ty inner)) ro) := by
    simp [unwrap, Value.Kind, GoValue.Kind, Value.Elem, hcell]
  have hd : dispatch (.of (.val (.ptr ty inner)) ro) t = .ok .zero :=
    dispatch_other t (by simp [Value.Kind, GoValue.Kind])
  have hty : (Value.of (.val (.ptr ty inner)) ro).Type = .ret (.ptr ty) := rfl
  exact ⟨hu, hd, resolve_not_found h hs hu hd hty⟩

/-- C20 at the test values: the cell at address 7 holds a pointer to a
`Person`, which has the field `Name`; from the pointer to that cell, "Name" is
not found in `*resolver.Person`. -/
theorem C20_pointer_to_pointer_witness :
    resolve pointerHeap (.of (.val (.ptr (.ptr personType) (some 7))) false) "Name" =
      .ret (none, some "*resolver.Person does not have field Name: nothing left to resolve") ∧
    resolve pointerHeap (.of (.val (.ptr (.ptr personType) (some 7))) false) "Name.x" =
      .ret (none, some "*resolver.Person does not have field Name: x left to resolve") ∧
    resolve pointerHeap (.of (.val (.ptr personType (some 2))) false) "Name" =
      .ret (some (.ptr (.named "string") (some 1)), none) :=
  ⟨(C20_pointer_to_pointer pointerHeap personType 7 (some 2) false "Name" "Name" [] rfl
      rfl).2.2,
   (C20_pointer_to_pointer pointerHeap personType 7 (some 2) false "Name.x" "Name" ["x"] rfl
      rfl).2.2,
   rfl⟩

end Resolver
